import Mathlib

/-!
Verification of the code-understanding engine of `the-gap`.

This file shallowly embeds the engine's core (symbol extraction results,
graph assembly, vector search, hybrid re-ranking, and the TTL/LRU cache
layer) into Lean and settles the specification claims against it.

Modelling conventions:
* JavaScript `Map` objects are embedded as association lists that keep
  insertion order; `Map.set` replaces in place or appends, `Map.delete`
  removes by key.
* JavaScript numbers are embedded as `ℚ` (for scores and vector data) or
  `Int` (for timestamps and the 32-bit hash, with explicit wrap-around).
* `Math.random()` is embedded as an explicit stream of draws `ℕ → ℚ`
  consumed in order, and `Date.now()` as an explicit `now` argument.
* Effectful TypeScript methods become state-passing Lean functions.
-/

set_option autoImplicit false

/-! ## Cache layer — `src/utils/cache.ts` -/

/-- Cache entry record, from `interface CacheEntry<T>` in `src/utils/cache.ts`. -/
structure CacheEntry (T : Type) where
  key : String
  value : T
  timestamp : Int
  accessCount : Nat
deriving Repr, DecidableEq

/-- State of a `SemanticCache<T>`: the backing `Map` (as an insertion-ordered
association list) plus the `maxSize` and `ttlMs` configuration. -/
structure SemanticCache (T : Type) where
  entries : List (CacheEntry T)
  maxSize : Nat
  ttlMs : Int
deriving Repr

/-- A fresh cache, as built by the `SemanticCache` constructor. -/
def SemanticCache.empty (T : Type) (maxSize : Nat) (ttlMs : Int) : SemanticCache T :=
  { entries := [], maxSize := maxSize, ttlMs := ttlMs }

/-- `Map.set` semantics on the entry list: replace the entry with the same key
in place, else append at the end. -/
def entriesSet {T : Type} (l : List (CacheEntry T)) (e : CacheEntry T) : List (CacheEntry T) :=
  if l.any (fun x => x.key == e.key) then
    l.map (fun x => if x.key == e.key then e else x)
  else l ++ [e]

/-- `Map.delete` semantics on the entry list (keys are kept unique by
construction, mirroring the JavaScript `Map`). -/
def entriesDelete {T : Type} (l : List (CacheEntry T)) (key : String) : List (CacheEntry T) :=
  l.filter (fun x => x.key != key)

/-- `SemanticCache.get(key)` from `src/utils/cache.ts`: miss on absent key;
on a TTL-expired entry delete it and miss; on a hit bump `accessCount`,
refresh `timestamp` to `now` and return the value. Returns the value
(`T | null` in the source) together with the updated cache state. -/
def SemanticCache.get {T : Type} (c : SemanticCache T) (now : Int) (key : String) :
    Option T × SemanticCache T :=
  match c.entries.find? (fun e => e.key == key) with
  | none => (none, c)
  | some e =>
    if now - e.timestamp > c.ttlMs then
      (none, { c with entries := entriesDelete c.entries key })
    else
      (some e.value,
       { c with entries := c.entries.map (fun x =>
          if x.key == key then { x with accessCount := x.accessCount + 1, timestamp := now }
          else x) })

/-- The loop body of `evictLRU`: keep the entry with the strictly smallest
`timestamp` seen so far (ties keep the earlier entry, as in the source loop). -/
def oldestFold {T : Type} (acc : Option (CacheEntry T)) (e : CacheEntry T) :
    Option (CacheEntry T) :=
  match acc with
  | none => some e
  | some o => if e.timestamp < o.timestamp then some e else some o

/-- The entry `evictLRU` selects for removal: first entry with minimal timestamp. -/
def oldestEntry {T : Type} (entries : List (CacheEntry T)) : Option (CacheEntry T) :=
  entries.foldl oldestFold none

/-- `SemanticCache.evictLRU` from `src/utils/cache.ts`: remove the entry with
the oldest timestamp, if any. -/
def SemanticCache.evictLRU {T : Type} (c : SemanticCache T) : SemanticCache T :=
  match oldestEntry c.entries with
  | some o => { c with entries := entriesDelete c.entries o.key }
  | none => c

/-- `SemanticCache.set(key, value)` from `src/utils/cache.ts`: if at capacity
and the key is new, evict the least recently used entry first; then store a
fresh entry with `timestamp = now` and `accessCount = 0`. -/
def SemanticCache.set {T : Type} (c : SemanticCache T) (now : Int) (key : String) (v : T) :
    SemanticCache T :=
  let c1 :=
    if c.entries.length ≥ c.maxSize ∧ ¬ (c.entries.any (fun e => e.key == key) = true) then
      c.evictLRU
    else c
  { c1 with entries := entriesSet c1.entries { key := key, value := v, timestamp := now, accessCount := 0 } }

/-- Fold a list of `set` operations `(now, key, value)` over a cache. -/
def SemanticCache.setAll {T : Type} (c : SemanticCache T)
    (ops : List (Int × String × T)) : SemanticCache T :=
  ops.foldl (fun c op => c.set op.1 op.2.1 op.2.2) c

/-! ### Embedding cache specialization -/

/-- JavaScript `ToInt32`: wrap an integer to the signed 32-bit range, as the
`hash & hash` step of `EmbeddingCache.createKey` does. -/
def toInt32 (x : Int) : Int :=
  let m := x % 4294967296
  if m ≥ 2147483648 then m - 4294967296 else m

/-- One iteration of the `createKey` hash loop:
`hash = (hash << 5) - hash + charCode`, wrapped to 32 bits by `hash & hash`.
The shift itself also wraps to 32 bits in JavaScript. -/
def hashStep (h : Int) (c : Nat) : Int :=
  toInt32 (toInt32 (32 * h) - h + (c : Int))

/-- Base-36 digit character, as produced by JavaScript `Number.toString(36)`. -/
def digit36 (n : Nat) : Char :=
  if n < 10 then Char.ofNat (48 + n) else Char.ofNat (87 + n)

/-- Base-36 digits of a natural number, most significant first. Structural
recursion on an explicit fuel bound (`n` itself suffices) so that the kernel
can evaluate the definition. -/
def natToBase36Fuel : Nat → Nat → List Char
  | 0, n => [digit36 n]
  | fuel + 1, n =>
    if n < 36 then [digit36 n]
    else natToBase36Fuel fuel (n / 36) ++ [digit36 (n % 36)]

/-- Base-36 digits of a natural number, most significant first. -/
def natToBase36 (n : Nat) : List Char :=
  natToBase36Fuel n n

/-- JavaScript `Number.toString(36)` on a 32-bit integer value. -/
def intToBase36 (x : Int) : String :=
  if x < 0 then "-" ++ String.mk (natToBase36 x.natAbs)
  else String.mk (natToBase36 x.toNat)

/-- `EmbeddingCache.createKey(text)` from `src/utils/cache.ts`: the 32-bit
accumulation hash of the character codes, rendered in base 36 with an
`emb_` marker in front. -/
def EmbeddingCache.createKey (text : String) : String :=
  "emb_" ++ intToBase36 (text.data.foldl (fun h c => hashStep h c.toNat) 0)

/-- The state of an `EmbeddingCache` (a `SemanticCache<number[]>`). -/
def EmbeddingCache : Type := SemanticCache (List ℚ)

/-- `EmbeddingCache.getOrCompute(text, computeFn)` from `src/utils/cache.ts`.
The compute function is embedded by the vector it would return; the `Bool`
in the result records whether the compute function was invoked. -/
def EmbeddingCache.getOrCompute (c : EmbeddingCache) (now : Int) (text : String)
    (computeResult : List ℚ) : List ℚ × EmbeddingCache × Bool :=
  let key := EmbeddingCache.createKey text
  match SemanticCache.get c now key with
  | (some cached, c1) => (cached, c1, false)
  | (none, c1) => (computeResult, SemanticCache.set c1 now key computeResult, true)

/-- Run a sequence of `getOrCompute` calls `(now, text, computeResult)` and
record, for each call, the key of its text and whether it invoked the
compute function. -/
def EmbeddingCache.runGetOrCompute (c : EmbeddingCache)
    (calls : List (Int × String × List ℚ)) : List (String × Bool) :=
  match calls with
  | [] => []
  | call :: rest =>
    let r := EmbeddingCache.getOrCompute c call.1 call.2.1 call.2.2
    (EmbeddingCache.createKey call.2.1, r.2.2) :: EmbeddingCache.runGetOrCompute r.2.1 rest

/-! ## Embedders — `src/rag/embeddings.ts` -/

/-- `RandomEmbedder.embed(texts)` from `src/rag/embeddings.ts`: for each input
text produce a vector of `dim` fresh `Math.random()` draws. The random source
is embedded explicitly as the stream `rng` of successive draws, consumed left
to right; the input texts themselves are never inspected. -/
def randomEmbed (dim : Nat) (rng : Nat → ℚ) (texts : List String) : List (List ℚ) :=
  (List.range texts.length).map (fun i => (List.range dim).map (fun j => rng (i * dim + j)))

/-! ## Vector store — `src/rag/vectorStore.ts` and `src/rag/ragEngine.ts` -/

/-- A stored vector record (`VectorRecord` in `src/rag/vectorStore.ts`).
The opaque `metadata` map is irrelevant to every claim and omitted. -/
structure VectorRecord where
  id : String
  text : String
  vector : List ℚ
deriving Repr, DecidableEq

/-- The accumulation loop of `cosineSim` in `src/rag/vectorStore.ts`: walk the
first `min (|a|, |b|)` components and accumulate `(dot, na, nb)` — the dot
product and the two squared norms. The final float expression of the source,
`dot / (Math.sqrt(na) * Math.sqrt(nb) + 1e-9)`, is stated over `ℝ` in the
theorems about this accumulator. One loop iteration: -/
def cosineStep (a b : List ℚ) (acc : ℚ × ℚ × ℚ) (i : Nat) : ℚ × ℚ × ℚ :=
  let ai := a.getD i 0
  let bi := b.getD i 0
  (acc.1 + ai * bi, acc.2.1 + ai * ai, acc.2.2 + bi * bi)

/-- The whole accumulation loop of `cosineSim` over index range
`0 ≤ i < min (|a|, |b|)`. -/
def cosineAccum (a b : List ℚ) : ℚ × ℚ × ℚ :=
  (List.range (min a.length b.length)).foldl (cosineStep a b) (0, 0, 0)

/-- Stable insertion into a list sorted descending by `score`: the new element
goes in front of the first element it does not lose to, so earlier input
elements stay in front of later elements with an equal score. This is the
behavior of the (ES2019-stable) `Array.prototype.sort` with the comparator
`(a, b) => b.score - a.score` used throughout the source. -/
def insertDescBy {A : Type} (score : A → ℚ) (x : A) : List A → List A
  | [] => [x]
  | y :: ys => if score x ≥ score y then x :: y :: ys else y :: insertDescBy score x ys

/-- Stable sort, descending by `score` (embedding of `.sort((a, b) => b.score - a.score)`). -/
def stableSortDesc {A : Type} (score : A → ℚ) (l : List A) : List A :=
  l.foldr (insertDescBy score) []

/-- `InMemoryVectorStore.query(vector, k)` from `src/rag/ragEngine.ts`: score
every stored record, sort descending by score, return the first `k` records.
The similarity function is passed explicitly (the source fixes it to
`cosineSim`, whose square-root step lives in `ℝ` and is treated through
`cosineAccum` above); every theorem about `query` holds for all `sim`. -/
def InMemoryVectorStore.query (sim : List ℚ → List ℚ → ℚ) (records : List VectorRecord)
    (vector : List ℚ) (k : Nat) : List VectorRecord :=
  let scored := records.map (fun r => (r, sim vector r.vector))
  let sorted := stableSortDesc (fun s => s.2) scored
  (sorted.take k).map (fun s => s.1)

/-- A retrieval document as produced by `RagEngine.search` in
`src/rag/ragEngine.ts` (`{id, text, metadata}`; metadata omitted). -/
structure RagDocument where
  id : String
  text : String
deriving Repr, DecidableEq

/-- `RagEngine.search(query, k)` from `src/rag/ragEngine.ts`, with the
embedding of the query already resolved to the vector `qv` (the embedder
contract is order-preserving and is applied identically on every call). -/
def RagEngine.search (sim : List ℚ → List ℚ → ℚ) (records : List VectorRecord)
    (qv : List ℚ) (k : Nat) : List RagDocument :=
  (InMemoryVectorStore.query sim records qv k).map (fun r => { id := r.id, text := r.text })

/-! ## Extraction results — `src/parser/tsParser.ts` -/

/-- Symbol kinds from `tsParser.ts` (`'function' | 'class' | 'interface' |
'type' | 'variable'`). `class`, `interface`, `type` and `variable` are Lean
keywords, so the constructors carry a suffix. -/
inductive SymbolKind
  | function
  | classDecl
  | interfaceDecl
  | typeAlias
  | varDecl
deriving Repr, DecidableEq

/-- The string value of a `SymbolKind`, as used in node-id construction. -/
def SymbolKind.str : SymbolKind → String
  | .function => "function"
  | .classDecl => "class"
  | .interfaceDecl => "interface"
  | .typeAlias => "type"
  | .varDecl => "variable"

/-- `ParsedSymbol` from `tsParser.ts` (`end` is a Lean keyword, renamed `stop`). -/
structure ParsedSymbol where
  name : String
  kind : SymbolKind
  filePath : String
  start : Nat
  stop : Nat
  exported : Bool
deriving Repr, DecidableEq

/-- `ImportInfo` from `tsParser.ts`: one record per imported binding. -/
structure ImportInfo where
  importedName : String
  modulePath : String
  filePath : String
  isDefault : Bool
deriving Repr, DecidableEq

/-- `FunctionCall` from `tsParser.ts`: `callerFunction` is `none` for
top-level calls. -/
structure FunctionCall where
  callerFunction : Option String
  calleeName : String
  filePath : String
  line : Nat
deriving Repr, DecidableEq

/-- `ParseResult` from `tsParser.ts`. -/
structure ParseResult where
  symbols : List ParsedSymbol
  imports : List ImportInfo
  calls : List FunctionCall
deriving Repr, DecidableEq

/-- The initializer shape of a variable declaration, as discriminated by the
TypeScript AST predicates used in `parseFileComplete`: `ts.isArrowFunction`
distinguishes exactly the arrow-function constructor. A `function () {}`
expression is a distinct AST kind (`FunctionExpression`). -/
inductive VarInitializer
  | arrowFunction
  | functionExpr
  | otherExpr
deriving Repr, DecidableEq

/-- The variable-statement branch of `parseFileComplete` in `tsParser.ts`:
`const isArrowFunc = decl.initializer && ts.isArrowFunction(decl.initializer);
const kind = isArrowFunc ? 'function' : 'variable'`. -/
def classifyVarInitializer (init : Option VarInitializer) : SymbolKind :=
  match init with
  | some .arrowFunction => .function
  | _ => .varDecl

/-- Modelled from the spec: a "function literal" initializer in the sense of
§4.1 — a function-valued literal expression, covering both arrow functions
and anonymous `function` expressions. Used to compare the spec's
classification rule with the source's. -/
def isFunctionLiteral (init : Option VarInitializer) : Bool :=
  match init with
  | some .arrowFunction => true
  | some .functionExpr => true
  | _ => false

/-! ## Graph data model — `src/parser/fileIndexer.ts` -/

/-- Node types. The source's union lacks `variable`, but the unchecked cast
`symbol.kind as GraphNodeType` lets a runtime `'variable'` value through, so
the embedding includes it. -/
inductive GraphNodeType
  | file
  | function
  | module
  | classDecl
  | interfaceDecl
  | typeAlias
  | varDecl
deriving Repr, DecidableEq

/-- The node type a symbol kind is cast to (`symbol.kind as GraphNodeType`). -/
def SymbolKind.toNodeType : SymbolKind → GraphNodeType
  | .function => .function
  | .classDecl => .classDecl
  | .interfaceDecl => .interfaceDecl
  | .typeAlias => .typeAlias
  | .varDecl => .varDecl

/-- `GraphNode` from `src/parser/fileIndexer.ts`. -/
structure GraphNode where
  id : String
  label : String
  type : GraphNodeType
  path : Option String := none
  exported : Option Bool := none
deriving Repr, DecidableEq

/-- Edge types (`'imports' | 'calls' | 'contains'`). -/
inductive GraphEdgeType
  | importsE
  | callsE
  | containsE
deriving Repr, DecidableEq

/-- `GraphEdge` from `src/parser/fileIndexer.ts`. -/
structure GraphEdge where
  source : String
  target : String
  type : GraphEdgeType
deriving Repr, DecidableEq

/-- `CodeGraph` from `src/parser/fileIndexer.ts`. -/
structure CodeGraph where
  nodes : List GraphNode
  edges : List GraphEdge
deriving Repr, DecidableEq

/-! ## GraphBuilder — `src/parser/fileIndexer.ts` -/

/-- `Map.set` on the node map (`this.nodes`), keyed by node id: replace in
place or append. -/
def nodesSet (nodes : List GraphNode) (n : GraphNode) : List GraphNode :=
  if nodes.any (fun m => m.id == n.id) then
    nodes.map (fun m => if m.id == n.id then n else m)
  else nodes ++ [n]

/-- `this.nodes.has(id)`. -/
def nodesHas (nodes : List GraphNode) (id : String) : Bool :=
  nodes.any (fun m => m.id == id)

/-- JavaScript `String.split(sep)` for a one-character separator, over the
character list (keeps empty segments, like the JavaScript original). -/
def splitOnChar (sep : Char) : List Char → List Char → List (List Char)
  | [], acc => [acc.reverse]
  | x :: xs, acc => if x = sep then acc.reverse :: splitOnChar sep xs [] else splitOnChar sep xs (x :: acc)

/-- Join character-list segments with a one-character separator
(JavaScript `Array.join(sep)`). -/
def joinWithChar (sep : Char) : List (List Char) → List Char
  | [] => []
  | [p] => p
  | p :: ps => p ++ sep :: joinWithChar sep ps

/-- `filePath.split('/').pop() ?? filePath` — the node label of a file. -/
def lastPathComponent (s : String) : String :=
  String.mk (((splitOnChar '/' s.data []).getLast?).getD s.data)

/-- The node id of a file. -/
def fileNodeId (filePath : String) : String := "file:" ++ filePath

/-- The node id of an extracted symbol: `` `${symbol.kind}:${filePath}:${symbol.name}` ``. -/
def symbolNodeId (filePath : String) (sym : ParsedSymbol) : String :=
  sym.kind.str ++ ":" ++ filePath ++ ":" ++ sym.name

/-- One iteration of the symbol loop of `parseAndIndexFile`: add the symbol
node (`Map.set`) and push the `contains` edge from the file node to it. -/
def indexSymbolStep (filePath fileId : String) (st : List GraphNode × List GraphEdge)
    (sym : ParsedSymbol) : List GraphNode × List GraphEdge :=
  let symbolId := symbolNodeId filePath sym
  (nodesSet st.1
    { id := symbolId, label := sym.name, type := sym.kind.toNodeType,
      path := some filePath, exported := some sym.exported },
   st.2 ++ [{ source := fileId, target := symbolId, type := .containsE }])

/-- The per-file body of `parseAndIndexFile` in `src/parser/fileIndexer.ts`
after a successful parse: add the file node, then one symbol node and one
`contains` edge per extracted symbol. File reading, skipping of missing or
empty files, and parse failures happen before this point and are modelled by
which files appear in the input list at all. -/
def parseAndIndexFile (st : List GraphNode × List GraphEdge) (filePath : String)
    (pr : ParseResult) : List GraphNode × List GraphEdge :=
  let fileId := fileNodeId filePath
  let nodes0 := nodesSet st.1
    { id := fileId, label := lastPathComponent filePath, type := .file, path := some filePath }
  pr.symbols.foldl (indexSymbolStep filePath fileId) (nodes0, st.2)

/-- `findCallTarget` from `src/parser/fileIndexer.ts`: for a dotted callee try
the same-file method id `function:<file>:<Receiver>.<method>` first; then try
the same-file plain id `function:<file>:<calleeName>`; cross-file resolution
is never attempted. -/
def findCallTarget (nodes : List GraphNode) (calleeName : String) (filePath : String) :
    Option String :=
  let tryMethod : Option String :=
    if calleeName.data.any (fun c => c = '.') then
      let parts := splitOnChar '.' calleeName.data []
      let className := String.mk (parts.headD [])
      let methodName := String.mk (joinWithChar '.' (parts.drop 1))
      let methodId := "function:" ++ filePath ++ ":" ++ className ++ "." ++ methodName
      if nodesHas nodes methodId then some methodId else none
    else none
  match tryMethod with
  | some id => some id
  | none =>
    let functionId := "function:" ++ filePath ++ ":" ++ calleeName
    if nodesHas nodes functionId then some functionId else none

/-- The source id of a call edge: `function:<file>:<caller>` for attributed
calls, `file:<file>` for top-level calls. -/
def callSourceId (filePath : String) (call : FunctionCall) : String :=
  match call.callerFunction with
  | some c => "function:" ++ filePath ++ ":" ++ c
  | none => fileNodeId filePath

/-- The import-edge half of the `buildEdges` loop body in
`src/parser/fileIndexer.ts`: emit one `imports` edge when the resolved
target is a known file node, skip otherwise. `resolveImportPath` performs
filesystem-path arithmetic and is passed in as `resolver`; the guard
`nodes.has(targetFileId)` is embedded literally. -/
def importEdgeFor (resolver : String → String → Option String) (nodes : List GraphNode)
    (filePath : String) (imp : ImportInfo) : List GraphEdge :=
  match resolver imp.modulePath filePath with
  | some resolvedPath =>
    let targetFileId := fileNodeId resolvedPath
    if nodesHas nodes targetFileId then
      [{ source := fileNodeId filePath, target := targetFileId, type := .importsE }]
    else []
  | none => []

/-- The call-edge half of the `buildEdges` loop body: emit the edge when the
same-file target exists, skip otherwise. -/
def callEdgeFor (nodes : List GraphNode) (filePath : String) (call : FunctionCall) :
    List GraphEdge :=
  match findCallTarget nodes call.calleeName filePath with
  | some targetId =>
    if nodesHas nodes targetId then
      [{ source := callSourceId filePath call, target := targetId, type := .callsE }]
    else []
  | none => []

/-- The per-file body of `buildEdges` in `src/parser/fileIndexer.ts`: first
the `imports` edges, then the `calls` edges, in source order. -/
def buildEdgesForFile (resolver : String → String → Option String) (nodes : List GraphNode)
    (filePath : String) (pr : ParseResult) : List GraphEdge :=
  let importEdges := pr.imports.foldl (fun es imp => es ++ importEdgeFor resolver nodes filePath imp) []
  let callEdges := pr.calls.foldl (fun es call => es ++ callEdgeFor nodes filePath call) []
  importEdges ++ callEdges

/-- `buildCompleteGraph` from `src/parser/fileIndexer.ts`, starting from the
cleared state: phase 1 indexes every file of the input (one file node, one
symbol node and one `contains` edge per symbol), phase 2 appends the
`imports` and `calls` edges per file. The input list plays the role of
`fileParseResults`; snapshot persistence is outside the model. -/
def buildCompleteGraph (resolver : String → String → Option String)
    (files : List (String × ParseResult)) : CodeGraph :=
  let phase1 := files.foldl (fun st f => parseAndIndexFile st f.1 f.2) ([], [])
  let phase2 := files.foldl (fun es f => es ++ buildEdgesForFile resolver phase1.1 f.1 f.2) []
  { nodes := phase1.1, edges := phase1.2 ++ phase2 }

/-! ## HybridRetriever — `src/rag/hybridRetriever.ts` -/

/-- Per-file connectivity counters from `buildFileConnectionMap`. -/
structure FileConn where
  importCount : Nat
  importedBy : Nat
  callCount : Nat
  calledBy : Nat
deriving Repr, DecidableEq

/-- Lookup in the connection map (a JavaScript `Map` keyed by file node id). -/
def connFind (m : List (String × FileConn)) (id : String) : Option FileConn :=
  (m.find? (fun p => p.1 == id)).map (fun p => p.2)

/-- `Map.set` on the connection map. -/
def connSet (m : List (String × FileConn)) (id : String) (c : FileConn) :
    List (String × FileConn) :=
  if m.any (fun p => p.1 == id) then m.map (fun p => if p.1 == id then (p.1, c) else p)
  else m ++ [(id, c)]

/-- Mutate the counters stored under `id`, if present (`map.get` returning
`undefined` leaves the map unchanged, as in the source). -/
def connAdjust (m : List (String × FileConn)) (id : String) (f : FileConn → FileConn) :
    List (String × FileConn) :=
  m.map (fun p => if p.1 == id then (p.1, f p.2) else p)

/-- The per-edge body of the counting loop in `buildFileConnectionMap`: an
`imports` edge bumps the source's `imports` and the target's `importedBy`
counters; a `calls` edge bumps `calls` and `calledBy`; `contains` edges are
ignored. Counters exist only for file-type nodes. -/
def connStep (m : List (String × FileConn)) (e : GraphEdge) : List (String × FileConn) :=
  match e.type with
  | .importsE =>
    connAdjust (connAdjust m e.source (fun c => { c with importCount := c.importCount + 1 }))
      e.target (fun c => { c with importedBy := c.importedBy + 1 })
  | .callsE =>
    connAdjust (connAdjust m e.source (fun c => { c with callCount := c.callCount + 1 }))
      e.target (fun c => { c with calledBy := c.calledBy + 1 })
  | .containsE => m

/-- `buildFileConnectionMap` from `src/rag/hybridRetriever.ts`: initialize a
zero counter for every file-type node, then count `imports` and `calls`
edges in one pass. -/
def buildFileConnectionMap (g : CodeGraph) : List (String × FileConn) :=
  let init := g.nodes.foldl
    (fun m n => if n.type = .file then connSet m n.id ⟨0, 0, 0, 0⟩ else m) []
  g.edges.foldl connStep init

/-- A scored candidate (`ScoredDocument` in the source). The human-readable
`boostReason` strings do not affect scores, ordering or selection and are
omitted. The document type is generic: the retriever only reads a document
through the file-path extraction function. -/
structure ScoredDoc (D : Type) where
  doc : D
  score : ℚ
deriving Repr, DecidableEq

/-- The initial scoring pass of `scoreWithGraphBoost`:
`documents.map((doc, index) => ({...doc, score: 1.0 / (index + 1)}))`,
written with an explicit running index. -/
def initialScoredFrom {D : Type} (i : Nat) : List D → List (ScoredDoc D)
  | [] => []
  | d :: ds => { doc := d, score := 1 / ((i : ℚ) + 1) } :: initialScoredFrom (i + 1) ds

/-- Initial rank-based scores, rank 0-based. -/
def initialScored {D : Type} (docs : List D) : List (ScoredDoc D) :=
  initialScoredFrom 0 docs

/-- The set (`Set<string>`) of file ids directly import-connected to `fileId`,
in either direction, built by the edge loop of `countRelatedDocuments`. -/
def connectedFileIds (g : CodeGraph) (fileId : String) : List String :=
  g.edges.foldl
    (fun s e =>
      let s1 := if e.source == fileId ∧ e.type = .importsE ∧ ¬ e.target ∈ s then s ++ [e.target] else s
      if e.target == fileId ∧ e.type = .importsE ∧ ¬ e.source ∈ s1 then s1 ++ [e.source] else s1)
    []

/-- `countRelatedDocuments` from `src/rag/hybridRetriever.ts`: count the
documents in the current result set whose extracted file id is directly
import-connected to `fileId` and differs from it. `extract` embeds
`extractFilePath` (a regex probe of the document content). -/
def countRelatedDocuments {D : Type} (extract : D → Option String) (g : CodeGraph)
    (fileId : String) (documents : List (ScoredDoc D)) : Nat :=
  let connected := connectedFileIds g fileId
  documents.countP (fun d =>
    match extract d.doc with
    | none => false
    | some p =>
      let docFileId := "file:" ++ p
      docFileId ≠ fileId ∧ docFileId ∈ connected)

/-- The per-document boost of `scoreWithGraphBoost`: multiplier `1.0`, plus
`0.3` if `importedBy > 2`, plus `0.2` if `imports > 3`, plus
`0.4 × relatedCount` if `relatedCount > 0`; the score is multiplied by the
result. Documents without an extractable or known file id keep their score. -/
def boostDoc {D : Type} (extract : D → Option String) (g : CodeGraph)
    (connMap : List (String × FileConn)) (allDocs : List (ScoredDoc D))
    (sd : ScoredDoc D) : ScoredDoc D :=
  match extract sd.doc with
  | none => sd
  | some filePath =>
    let fileId := "file:" ++ filePath
    match connFind connMap fileId with
    | none => sd
    | some conn =>
      let m1 : ℚ := 1
      let m2 := if conn.importedBy > 2 then m1 + 3/10 else m1
      let m3 := if conn.importCount > 3 then m2 + 1/5 else m2
      let related := countRelatedDocuments extract g fileId allDocs
      let m4 := if related > 0 then m3 + (2/5) * (related : ℚ) else m3
      { sd with score := sd.score * m4 }

/-- `scoreWithGraphBoost` from `src/rag/hybridRetriever.ts`: assign
rank-based initial scores, then boost each document from the graph
connection map. The boost loop reads other documents only through their
(immutable) content, so it is a `map` over the initially scored list. -/
def scoreWithGraphBoost {D : Type} (extract : D → Option String) (g : CodeGraph)
    (documents : List D) : List (ScoredDoc D) :=
  let scoredDocs := initialScored documents
  let connMap := buildFileConnectionMap g
  scoredDocs.map (boostDoc extract g connMap scoredDocs)

/-- `HybridRetriever.search(query, k)` from `src/rag/hybridRetriever.ts`:
fetch `k * 3` candidates from the underlying engine, fall back to the plain
top-`k` slice when no graph is attached or the graph has zero nodes,
otherwise boost, re-sort by score descending (stable) and return the top
`k`. The underlying `rag.search` collaborator is passed as the function
`rag` from requested count to result list (the query string is fixed). -/
def HybridRetriever.search {D : Type} (extract : D → Option String)
    (rag : Nat → List D) (graph : Option CodeGraph) (k : Nat) : List D :=
  let initialResults := rag (k * 3)
  match graph with
  | none => initialResults.take k
  | some g =>
    if g.nodes.length = 0 then initialResults.take k
    else
      let scoredResults := scoreWithGraphBoost extract g initialResults
      ((stableSortDesc (fun sd => sd.score) scoredResults).take k).map (fun sd => sd.doc)

/-- Whitespace test of JavaScript `String.trim()` (the characters relevant
to the embedded inputs). -/
def isWSChar (c : Char) : Bool :=
  c = ' ' || c = '\n' || c = '\t' || c = '\r'

/-- JavaScript `String.trim()` over the character list. -/
def trimWS (cs : List Char) : List Char :=
  ((cs.dropWhile isWSChar).reverse.dropWhile isWSChar).reverse

/-- The first pattern of `extractFilePath` (`/^(?:File|Path):\s*(.+?)(?:\n|$)/i`
followed by `.trim()`), restricted to contents of the shape
`"File: <path>"` or `"File: <path>\n<rest>"` as used by the tests and the
indexing pipeline: take everything after `"File: "` up to the first newline
and trim it. Used to instantiate the generic `extract` parameter on
concrete inputs. -/
def parseFileLine (content : String) : Option String :=
  let cs := content.data
  if cs.take 6 = "File: ".data then
    some (String.mk (trimWS ((cs.drop 6).takeWhile (fun c => c ≠ '\n'))))
  else none

/-! ## Concrete instances used by witnesses and counterexamples -/

/-- The 3-node import cycle `file0 → file1 → file2 → file0` from the
HybridRetriever test suite. -/
def cycleGraph : CodeGraph :=
  { nodes := [
      { id := "file:src/file0.ts", label := "file0.ts", type := .file, path := some "src/file0.ts" },
      { id := "file:src/file1.ts", label := "file1.ts", type := .file, path := some "src/file1.ts" },
      { id := "file:src/file2.ts", label := "file2.ts", type := .file, path := some "src/file2.ts" }],
    edges := [
      { source := "file:src/file0.ts", target := "file:src/file1.ts", type := .importsE },
      { source := "file:src/file1.ts", target := "file:src/file2.ts", type := .importsE },
      { source := "file:src/file2.ts", target := "file:src/file0.ts", type := .importsE }] }

/-- Two candidate documents drawn from the cycle's files, in the content
shape produced by the indexing pipeline and the test mock. -/
def cycleDocs : List String :=
  ["File: src/file0.ts\n\nSome code here", "File: src/file1.ts\n\nSome code here"]

/-- Extraction result of `a.ts`, which defines `main`, calls `helper` from
inside it, and has `import { helper } from './b'`. -/
def aParse : ParseResult :=
  { symbols := [{ name := "main", kind := .function, filePath := "a.ts",
                  start := 0, stop := 40, exported := false }],
    imports := [{ importedName := "helper", modulePath := "./b", filePath := "a.ts",
                  isDefault := false }],
    calls := [{ callerFunction := some "main", calleeName := "helper", filePath := "a.ts",
                line := 1 }] }

/-- Extraction result of `b.ts`, which defines `export function helper()`. -/
def bParse : ParseResult :=
  { symbols := [{ name := "helper", kind := .function, filePath := "b.ts",
                  start := 0, stop := 30, exported := true }],
    imports := [], calls := [] }

/-- Import resolution for the two-file scenario: `./b` from `a.ts` resolves
to `b.ts` (via the probed `.ts` extension). -/
def abResolver : String → String → Option String := fun mp fromFile =>
  if mp == "./b" && fromFile == "a.ts" then some "b.ts" else none

/-- The two-file input set of the import/call-resolution scenarios. -/
def abFiles : List (String × ParseResult) := [("a.ts", aParse), ("b.ts", bParse)]

/-! ## Generic helper lemmas -/

lemma foldl_congr_mem {A B : Type} (l : List A) (f g : B → A → B) (init : B)
    (h : ∀ acc x, x ∈ l → f acc x = g acc x) : l.foldl f init = l.foldl g init := by
  induction l generalizing init with
  | nil => rfl
  | cons a t ih =>
    simp only [List.foldl_cons]
    rw [h init a (by simp)]
    exact ih _ (fun acc x hx => h acc x (by simp [hx]))

lemma foldl_append_shape {A B : Type} (g : A → List B) :
    ∀ (l : List A) (init : List B),
      l.foldl (fun es x => es ++ g x) init = init ++ l.foldr (fun x acc => g x ++ acc) [] := by
  intro l
  induction l with
  | nil => simp
  | cons a t ih => intro init; simp [ih, List.append_assoc]

lemma mem_foldl_append_shape {A B : Type} (g : A → List B) (l : List A) (init : List B)
    (e : B) : e ∈ l.foldl (fun es x => es ++ g x) init ↔ e ∈ init ∨ ∃ x ∈ l, e ∈ g x := by
  rw [foldl_append_shape]
  simp only [List.mem_append]
  constructor
  · rintro (h | h)
    · exact Or.inl h
    · refine Or.inr ?_
      induction l with
      | nil => simp at h
      | cons a t ih =>
        simp only [List.foldr_cons, List.mem_append] at h
        rcases h with h | h
        · exact ⟨a, by simp, h⟩
        · obtain ⟨x, hx, hex⟩ := ih h
          exact ⟨x, by simp [hx], hex⟩
  · rintro (h | ⟨x, hx, hex⟩)
    · exact Or.inl h
    · refine Or.inr ?_
      induction l with
      | nil => simp at hx
      | cons a t ih =>
        simp only [List.foldr_cons, List.mem_append]
        rcases List.mem_cons.mp hx with rfl | hx
        · exact Or.inl hex
        · exact Or.inr (ih hx)

/-! ## C1 — determinism of the fallback embedder -/

/-- C1: the spec demands a deterministic fallback embedder ("identical text
always yields a bit-identical vector"), and the repository's own `todo.md`
states the system "falls back to deterministic embedding hash if
unavailable". The shipped fallback `RandomEmbedder.embed` instead fills
every vector from `Math.random()`: with two independent random draws the
two calls on the same text `"hello"` disagree, so the fallback embedding is
not a function of the input text. -/
theorem c1_random_embedder_not_deterministic :
    randomEmbed 2 (fun _ => 0) ["hello"] = [[0, 0]] ∧
    randomEmbed 2 (fun _ => 1) ["hello"] = [[1, 1]] ∧
    randomEmbed 2 (fun _ => 0) ["hello"] ≠ randomEmbed 2 (fun _ => 1) ["hello"] := by
  refine ⟨by decide, by decide, ?_⟩
  intro h
  rw [show randomEmbed 2 (fun _ => 0) ["hello"] = [[0, 0]] from by decide,
      show randomEmbed 2 (fun _ => 1) ["hello"] = [[1, 1]] from by decide] at h
  simp at h

/-! ## C9 — classification of variable initializers -/

/-- C9 (counterexample): a variable declaration whose initializer is an
anonymous `function () {}` expression is a function literal, yet
`parseFileComplete` classifies it `kind = variable`, because the source
tests `ts.isArrowFunction` only. -/
theorem c9_function_expression_counterexample :
    isFunctionLiteral (some .functionExpr) = true ∧
    classifyVarInitializer (some .functionExpr) = SymbolKind.varDecl ∧
    SymbolKind.varDecl ≠ SymbolKind.function := by
  decide

/-- C9 (amended): a variable declaration is classified `kind = function`
exactly when its initializer is an arrow function; every other initializer
(a `function` expression included) and the absence of an initializer yield
`kind = variable`. -/
theorem c9_arrow_function_classification (init : Option VarInitializer) :
    (classifyVarInitializer init = SymbolKind.function ↔ init = some .arrowFunction) ∧
    (classifyVarInitializer init = SymbolKind.function ∨
     classifyVarInitializer init = SymbolKind.varDecl) := by
  rcases init with _ | k
  · simp [classifyVarInitializer]
  · cases k <;> simp [classifyVarInitializer]

/-! ## C10 — totality of cosine similarity and of `query` -/

lemma getD_take_of_lt {α : Type} (l : List α) (m i : Nat) (d : α) (h : i < m) :
    (l.take m).getD i d = l.getD i d := by
  induction l generalizing m i with
  | nil => simp
  | cons a t ih =>
    cases m with
    | zero => omega
    | succ m =>
      cases i with
      | zero => simp [List.getD]
      | succ i =>
        simp only [List.take_succ_cons, List.getD_cons_succ]
        exact ih m i (by omega)

lemma cosineFold_na_le (a b : List ℚ) (r : List Nat) :
    ∀ acc : ℚ × ℚ × ℚ, acc.2.1 ≤ (r.foldl (cosineStep a b) acc).2.1 := by
  induction r with
  | nil => intro acc; simp
  | cons i t ih =>
    intro acc
    refine le_trans ?_ (ih (cosineStep a b acc i))
    simp only [cosineStep]
    exact le_add_of_nonneg_right (mul_self_nonneg _)

lemma cosineFold_nb_le (a b : List ℚ) (r : List Nat) :
    ∀ acc : ℚ × ℚ × ℚ, acc.2.2 ≤ (r.foldl (cosineStep a b) acc).2.2 := by
  induction r with
  | nil => intro acc; simp
  | cons i t ih =>
    intro acc
    refine le_trans ?_ (ih (cosineStep a b acc i))
    simp only [cosineStep]
    exact le_add_of_nonneg_right (mul_self_nonneg _)

lemma insertDescBy_length {A : Type} (score : A → ℚ) (x : A) (l : List A) :
    (insertDescBy score x l).length = l.length + 1 := by
  induction l with
  | nil => rfl
  | cons y ys ih =>
    simp only [insertDescBy]
    split
    · simp
    · simp [ih]

lemma stableSortDesc_length {A : Type} (score : A → ℚ) (l : List A) :
    (stableSortDesc score l).length = l.length := by
  induction l with
  | nil => rfl
  | cons y ys ih =>
    simp only [stableSortDesc, List.foldr_cons] at *
    rw [insertDescBy_length, ih, List.length_cons]

/-- C10: `cosineSim` is total on every pair of vectors. Its accumulation loop
reads only the first `min (|a|, |b|)` components of either vector (so a
dimension mismatch silently truncates and no out-of-bounds access occurs);
the accumulated squared norms are nonnegative, so the denominator
`√na · √nb + 1e-9` of the final division is strictly positive — the result
is defined even for all-zero vectors. Consequently `query` is total and
returns exactly `min k |records|` records for every query vector. -/
theorem c10_cosine_total_and_guarded :
    (∀ a b : List ℚ,
      cosineAccum a b =
        cosineAccum (a.take (min a.length b.length)) (b.take (min a.length b.length)) ∧
      0 ≤ (cosineAccum a b).2.1 ∧ 0 ≤ (cosineAccum a b).2.2 ∧
      0 < Real.sqrt ((cosineAccum a b).2.1 : ℝ) * Real.sqrt ((cosineAccum a b).2.2 : ℝ)
            + 1e-9)
    ∧ (∀ (sim : List ℚ → List ℚ → ℚ) (records : List VectorRecord) (qv : List ℚ) (k : Nat),
      (InMemoryVectorStore.query sim records qv k).length = min k records.length) := by
  constructor
  · intro a b
    refine ⟨?_, ?_, ?_, ?_⟩
    · unfold cosineAccum
      have hlen : min (a.take (min a.length b.length)).length
          (b.take (min a.length b.length)).length = min a.length b.length := by
        simp only [List.length_take]
        omega
      rw [hlen]
      refine foldl_congr_mem _ _ _ _ ?_
      intro acc i hi
      have hilt : i < min a.length b.length := by
        simpa using List.mem_range.mp hi
      simp only [cosineStep]
      rw [getD_take_of_lt a _ _ _ hilt, getD_take_of_lt b _ _ _ hilt]
    · exact cosineFold_na_le a b _ (0, 0, 0)
    · exact cosineFold_nb_le a b _ (0, 0, 0)
    · have h1 := Real.sqrt_nonneg (((cosineAccum a b).2.1 : ℚ) : ℝ)
      have h2 := Real.sqrt_nonneg (((cosineAccum a b).2.2 : ℚ) : ℝ)
      have h3 : (0 : ℝ) < 1e-9 := by norm_num
      nlinarith [mul_nonneg h1 h2]
  · intro sim records qv k
    unfold InMemoryVectorStore.query
    simp [stableSortDesc_length]

/-! ## C3 — pure vector fallback of hybrid search -/

/-- C3: when no graph is attached, or the attached graph has zero nodes,
`HybridRetriever.search(q, k)` returns exactly the documents of a direct
`k`-best query against the underlying vector index, in the same order: the
oversampled `3k` fetch followed by `slice(0, k)` equals fetching `k`
directly (for any similarity function and any stored records, with the
embedded query vector fixed across the two calls). -/
theorem c3_hybrid_fallback_pure_vector (extract : RagDocument → Option String)
    (sim : List ℚ → List ℚ → ℚ) (records : List VectorRecord) (qv : List ℚ) (k : Nat)
    (graph : Option CodeGraph)
    (h : graph = none ∨ ∃ g, graph = some g ∧ g.nodes = []) :
    HybridRetriever.search extract (fun n => RagEngine.search sim records qv n) graph k
      = RagEngine.search sim records qv k := by
  have key : (RagEngine.search sim records qv (k * 3)).take k
      = RagEngine.search sim records qv k := by
    unfold RagEngine.search InMemoryVectorStore.query
    rw [← List.map_take, ← List.map_take, List.take_take]
    have : min k (k * 3) = k := by omega
    rw [this]
  rcases h with rfl | ⟨g, rfl, hg⟩
  · simpa [HybridRetriever.search] using key
  · simp only [HybridRetriever.search, hg]
    simpa using key

/-- Witness for C3: a concrete two-record index with no graph attached. -/
theorem c3_witness :
    HybridRetriever.search (fun _ => none)
        (fun n => RagEngine.search (fun _ _ => 0)
          [{ id := "r1", text := "t1", vector := [1] },
           { id := "r2", text := "t2", vector := [0] }] [1] n) none 1
      = RagEngine.search (fun _ _ => 0)
          [{ id := "r1", text := "t1", vector := [1] },
           { id := "r2", text := "t2", vector := [0] }] [1] 1 :=
  c3_hybrid_fallback_pure_vector (fun _ => none) (fun _ _ => 0) _ [1] 1 none (Or.inl rfl)

/-! ## C4/C5 — graph-boosted scoring -/

lemma initialScoredFrom_getElem {D : Type} (docs : List D) :
    ∀ (j i : Nat), (initialScoredFrom j docs)[i]?
      = (docs[i]?).map (fun d => { doc := d, score := 1 / ((j : ℚ) + (i : ℚ) + 1) }) := by
  induction docs with
  | nil => intro j i; simp [initialScoredFrom]
  | cons d ds ih =>
    intro j i
    cases i with
    | zero => simp [initialScoredFrom]
    | succ i =>
      simp only [initialScoredFrom, List.getElem?_cons_succ]
      rw [ih (j + 1) i]
      have : ((j : ℚ) + 1) + (i : ℚ) + 1 = (j : ℚ) + ((i : ℚ) + 1) + 1 := by ring
      simp [this]

lemma initialScored_getElem {D : Type} (docs : List D) (i : Nat) :
    (initialScored docs)[i]? = (docs[i]?).map (fun d => { doc := d, score := 1 / ((i : ℚ) + 1) }) := by
  rw [initialScored, initialScoredFrom_getElem]
  norm_num

/-- The closed-form final score of a candidate whose content yields a file
path known to the connection map: initial rank score times
`1 + 0.3·[importedBy > 2] + 0.2·[imports > 3] + 0.4·relatedCount`. Shared
computation behind the C4 and C5 results. -/
lemma scoreWithGraphBoost_getElem {D : Type} (extract : D → Option String) (g : CodeGraph)
    (docs : List D) (i : Nat) (d : D) (p : String) (conn : FileConn)
    (hd : docs[i]? = some d)
    (hp : extract d = some p)
    (hc : connFind (buildFileConnectionMap g) ("file:" ++ p) = some conn) :
    (scoreWithGraphBoost extract g docs)[i]? = some
      { doc := d,
        score := (1 / ((i : ℚ) + 1)) *
          (1 + (if 2 < conn.importedBy then (3 : ℚ)/10 else 0)
             + (if 3 < conn.importCount then (1 : ℚ)/5 else 0)
             + (2/5) * (countRelatedDocuments extract g ("file:" ++ p) (initialScored docs) : ℚ)) } := by
  unfold scoreWithGraphBoost
  rw [List.getElem?_map, initialScored_getElem, hd]
  simp only [Option.map_some']
  simp only [boostDoc, hp, hc]
  congr 1
  rcases Nat.eq_zero_or_pos
      (countRelatedDocuments extract g ("file:" ++ p) (initialScored docs)) with h0 | hpos
  · rw [h0]
    split_ifs <;> push_cast <;> ring_nf
  · rw [if_pos hpos]
    split_ifs <;> ring_nf

/-- C4: for every candidate whose content yields a file path with a known
file node, the final score equals the initial rank score `1/(rank+1)`
multiplied by `1 + 0.3·[importedBy > 2] + 0.2·[imports > 3] +
0.4·relatedCount`, where `relatedCount` counts the other candidates in the
fetched result set whose file is directly import-connected (either
direction) to this candidate's file. -/
theorem c4_graph_boost_score_formula {D : Type} (extract : D → Option String) (g : CodeGraph)
    (docs : List D) (i : Nat) (d : D) (p : String) (conn : FileConn)
    (hd : docs[i]? = some d)
    (hp : extract d = some p)
    (hc : connFind (buildFileConnectionMap g) ("file:" ++ p) = some conn) :
    (scoreWithGraphBoost extract g docs)[i]? = some
      { doc := d,
        score := (1 / ((i : ℚ) + 1)) *
          (1 + (if 2 < conn.importedBy then (3 : ℚ)/10 else 0)
             + (if 3 < conn.importCount then (1 : ℚ)/5 else 0)
             + (2/5) * (countRelatedDocuments extract g ("file:" ++ p) (initialScored docs) : ℚ)) } :=
  scoreWithGraphBoost_getElem extract g docs i d p conn hd hp hc

/-- Witness for C4: the first candidate over the 3-cycle graph. -/
theorem c4_witness :
    (scoreWithGraphBoost parseFileLine cycleGraph cycleDocs)[0]? = some
      { doc := "File: src/file0.ts\n\nSome code here",
        score := (1 / (((0 : Nat) : ℚ) + 1)) *
          (1 + (if 2 < (1 : Nat) then (3 : ℚ)/10 else 0)
             + (if 3 < (1 : Nat) then (1 : ℚ)/5 else 0)
             + (2/5) * (countRelatedDocuments parseFileLine cycleGraph ("file:" ++ "src/file0.ts")
                 (initialScored cycleDocs) : ℚ)) } :=
  c4_graph_boost_score_formula parseFileLine cycleGraph cycleDocs 0
    "File: src/file0.ts\n\nSome code here" "src/file0.ts" ⟨1, 1, 0, 0⟩
    (by decide) (by decide) (by decide)

lemma connFind_cycleGraph (id : String) (conn : FileConn)
    (h : connFind (buildFileConnectionMap cycleGraph) id = some conn) :
    conn = ⟨1, 1, 0, 0⟩ := by
  have hm : buildFileConnectionMap cycleGraph =
      [("file:src/file0.ts", ⟨1, 1, 0, 0⟩), ("file:src/file1.ts", ⟨1, 1, 0, 0⟩),
       ("file:src/file2.ts", ⟨1, 1, 0, 0⟩)] := by decide
  rw [connFind, hm] at h
  cases hfind : List.find? (fun p => p.1 == id)
      ([("file:src/file0.ts", (⟨1, 1, 0, 0⟩ : FileConn)), ("file:src/file1.ts", ⟨1, 1, 0, 0⟩),
        ("file:src/file2.ts", ⟨1, 1, 0, 0⟩)]) with
  | none => rw [hfind] at h; simp at h
  | some pair =>
    rw [hfind] at h
    simp only [Option.map_some', Option.some.injEq] at h
    have hmem := List.mem_of_find?_eq_some hfind
    subst h
    simp only [List.mem_cons, List.not_mem_nil, or_false] at hmem
    rcases hmem with rfl | rfl | rfl <;> rfl

/-- C5 (counterexample): over the import 3-cycle `A→B→C→A`, with two
candidates drawn from files A and B, the first candidate's final score is
`7/5` — not the pure rank-based `1/(rank+1) = 1` — because the
`0.4 × relatedCount` boost fires (B is import-connected to A and is in the
result set). -/
theorem c5_cycle_counterexample :
    ((scoreWithGraphBoost parseFileLine cycleGraph cycleDocs)[0]?).map (fun sd => sd.score)
      = some (7/5) ∧ ((7 : ℚ)/5) ≠ 1 / (((0 : Nat) : ℚ) + 1) := by
  constructor
  · rw [scoreWithGraphBoost_getElem parseFileLine cycleGraph cycleDocs 0
        "File: src/file0.ts\n\nSome code here" "src/file0.ts" ⟨1, 1, 0, 0⟩
        (by decide) (by decide) (by decide),
      show countRelatedDocuments parseFileLine cycleGraph ("file:" ++ "src/file0.ts")
          (initialScored cycleDocs) = 1 from by decide]
    simp only [Option.map_some']
    norm_num
  · norm_num

/-- C5 (amended): in the import 3-cycle every file has `importedBy = 1` and
`imports = 1`, so no candidate ever receives the `importedBy > 2` or
`imports > 3` boosts; a candidate's score is the pure rank-based
`1/(rank+1)` — except that the relatedness boost `1 + 0.4·relatedCount`
still applies whenever the candidate's file is import-connected to the file
of another candidate in the result set (`relatedCount > 0`). Scores reduce
to exactly `1/(rank+1)` only in the unrelated case. -/
theorem c5_cycle_amended :
    (connFind (buildFileConnectionMap cycleGraph) "file:src/file0.ts" = some ⟨1, 1, 0, 0⟩ ∧
     connFind (buildFileConnectionMap cycleGraph) "file:src/file1.ts" = some ⟨1, 1, 0, 0⟩ ∧
     connFind (buildFileConnectionMap cycleGraph) "file:src/file2.ts" = some ⟨1, 1, 0, 0⟩) ∧
    ∀ (D : Type) (extract : D → Option String) (docs : List D) (i : Nat) (d : D),
      docs[i]? = some d →
      ((scoreWithGraphBoost extract cycleGraph docs)[i]?
          = some { doc := d, score := 1 / ((i : ℚ) + 1) } ∨
       ∃ r : Nat, 0 < r ∧ (scoreWithGraphBoost extract cycleGraph docs)[i]?
          = some { doc := d, score := (1 / ((i : ℚ) + 1)) * (1 + (2/5) * (r : ℚ)) }) := by
  refine ⟨⟨by decide, by decide, by decide⟩, ?_⟩
  intro D extract docs i d hd
  cases hpe : extract d with
  | none =>
    left
    unfold scoreWithGraphBoost
    rw [List.getElem?_map, initialScored_getElem, hd]
    simp only [Option.map_some']
    simp only [boostDoc, hpe]
  | some p =>
    cases hcf : connFind (buildFileConnectionMap cycleGraph) ("file:" ++ p) with
    | none =>
      left
      unfold scoreWithGraphBoost
      rw [List.getElem?_map, initialScored_getElem, hd]
      simp only [Option.map_some']
      simp only [boostDoc, hpe, hcf]
    | some conn =>
      have hconn := connFind_cycleGraph _ _ hcf
      subst hconn
      rcases Nat.eq_zero_or_pos (countRelatedDocuments extract cycleGraph ("file:" ++ p)
          (initialScored docs)) with h0 | hpos
      · left
        rw [scoreWithGraphBoost_getElem extract cycleGraph docs i d p ⟨1, 1, 0, 0⟩ hd hpe hcf, h0]
        norm_num
      · right
        refine ⟨countRelatedDocuments extract cycleGraph ("file:" ++ p) (initialScored docs),
          hpos, ?_⟩
        rw [scoreWithGraphBoost_getElem extract cycleGraph docs i d p ⟨1, 1, 0, 0⟩ hd hpe hcf]
        norm_num

/-- Witness for C5 (amended): a single candidate with no extractable file
path keeps its pure rank score. -/
theorem c5_witness :
    (scoreWithGraphBoost (fun _ => none) cycleGraph ["x"])[0]?
        = some { doc := "x", score := 1 / (((0 : Nat) : ℚ) + 1) } ∨
    ∃ r : Nat, 0 < r ∧ (scoreWithGraphBoost (fun _ => none) cycleGraph ["x"])[0]?
        = some { doc := "x", score := (1 / (((0 : Nat) : ℚ) + 1)) * (1 + (2/5) * (r : ℚ)) } :=
  c5_cycle_amended.2 String (fun _ => none) ["x"] 0 "x" rfl

/-! ## C2/C8 — graph construction invariants -/

lemma nodesHas_eq_mem (ns : List GraphNode) (id : String) :
    nodesHas ns id = true ↔ id ∈ ns.map (fun n => n.id) := by
  simp [nodesHas, List.any_eq_true, beq_iff_eq, List.mem_map]

lemma map_id_nodesSet (ns : List GraphNode) (n : GraphNode) :
    (nodesSet ns n).map (fun m => m.id)
      = if nodesHas ns n.id then ns.map (fun m => m.id) else ns.map (fun m => m.id) ++ [n.id] := by
  unfold nodesSet nodesHas
  split
  · rw [List.map_map]
    refine List.map_congr_left ?_
    intro m _
    simp only [Function.comp_apply]
    split
    · rename_i hm; exact (beq_iff_eq.mp hm).symm
    · rfl
  · simp

lemma nodesHas_nodesSet_self (ns : List GraphNode) (n : GraphNode) :
    nodesHas (nodesSet ns n) n.id = true := by
  rw [nodesHas_eq_mem, map_id_nodesSet]
  split
  · rename_i h; exact (nodesHas_eq_mem ns n.id).mp h
  · simp

lemma nodesHas_nodesSet_mono (ns : List GraphNode) (n : GraphNode) (id : String)
    (h : nodesHas ns id = true) : nodesHas (nodesSet ns n) id = true := by
  rw [nodesHas_eq_mem, map_id_nodesSet]
  rw [nodesHas_eq_mem] at h
  split <;> simp [h]

lemma nodup_nodesSet (ns : List GraphNode) (n : GraphNode)
    (h : (ns.map (fun m => m.id)).Nodup) : ((nodesSet ns n).map (fun m => m.id)).Nodup := by
  rw [map_id_nodesSet]
  split
  · exact h
  · rename_i hn
    rw [List.nodup_append]
    refine ⟨h, List.nodup_singleton _, ?_⟩
    intro a ha hb
    simp only [List.mem_singleton] at hb
    subst hb
    exact hn ((nodesHas_eq_mem ns n.id).mpr ha)

lemma indexSymbolStep_nodes_mono (f fid : String) (st : List GraphNode × List GraphEdge)
    (sym : ParsedSymbol) (id : String) (h : nodesHas st.1 id = true) :
    nodesHas (indexSymbolStep f fid st sym).1 id = true := by
  simp only [indexSymbolStep]
  exact nodesHas_nodesSet_mono _ _ _ h

lemma symFold_nodes_mono (f fid : String) (syms : List ParsedSymbol) :
    ∀ (st : List GraphNode × List GraphEdge) (id : String), nodesHas st.1 id = true →
      nodesHas (syms.foldl (indexSymbolStep f fid) st).1 id = true := by
  induction syms with
  | nil => intro st id h; exact h
  | cons a t ih =>
    intro st id h
    exact ih _ _ (indexSymbolStep_nodes_mono f fid st a id h)

lemma symFold_has_symbol (f fid : String) (syms : List ParsedSymbol) :
    ∀ (st : List GraphNode × List GraphEdge) (sym : ParsedSymbol), sym ∈ syms →
      nodesHas (syms.foldl (indexSymbolStep f fid) st).1 (symbolNodeId f sym) = true := by
  induction syms with
  | nil => intro st sym h; cases h
  | cons a t ih =>
    intro st sym h
    rcases List.mem_cons.mp h with rfl | h
    · refine symFold_nodes_mono f fid t _ _ ?_
      simp only [indexSymbolStep]
      exact nodesHas_nodesSet_self _ _
    · exact ih _ sym h

lemma symFold_inv (f fid : String) (syms : List ParsedSymbol) :
    ∀ (st : List GraphNode × List GraphEdge),
      (st.1.map (fun n => n.id)).Nodup →
      (∀ e ∈ st.2, nodesHas st.1 e.source = true ∧ nodesHas st.1 e.target = true ∧
        e.type = GraphEdgeType.containsE) →
      nodesHas st.1 fid = true →
      (((syms.foldl (indexSymbolStep f fid) st).1.map (fun n => n.id)).Nodup ∧
       (∀ e ∈ (syms.foldl (indexSymbolStep f fid) st).2,
         nodesHas (syms.foldl (indexSymbolStep f fid) st).1 e.source = true ∧
         nodesHas (syms.foldl (indexSymbolStep f fid) st).1 e.target = true ∧
         e.type = GraphEdgeType.containsE) ∧
       nodesHas (syms.foldl (indexSymbolStep f fid) st).1 fid = true) := by
  induction syms with
  | nil => intro st h1 h2 h3; exact ⟨h1, h2, h3⟩
  | cons a t ih =>
    intro st h1 h2 h3
    simp only [List.foldl_cons]
    refine ih _ ?_ ?_ ?_
    · simp only [indexSymbolStep]
      exact nodup_nodesSet _ _ h1
    · intro e he
      simp only [indexSymbolStep] at he ⊢
      rcases List.mem_append.mp he with he | he
      · obtain ⟨hs, ht, hty⟩ := h2 e he
        exact ⟨nodesHas_nodesSet_mono _ _ _ hs, nodesHas_nodesSet_mono _ _ _ ht, hty⟩
      · simp only [List.mem_singleton] at he
        subst he
        exact ⟨nodesHas_nodesSet_mono _ _ _ h3, nodesHas_nodesSet_self _ _, rfl⟩
    · exact indexSymbolStep_nodes_mono f fid st a fid h3

lemma parseAndIndexFile_nodes_mono (st : List GraphNode × List GraphEdge) (f : String)
    (pr : ParseResult) (id : String) (h : nodesHas st.1 id = true) :
    nodesHas (parseAndIndexFile st f pr).1 id = true := by
  unfold parseAndIndexFile
  exact symFold_nodes_mono _ _ _ _ _ (nodesHas_nodesSet_mono _ _ _ h)

lemma parseAndIndexFile_has_file (st : List GraphNode × List GraphEdge) (f : String)
    (pr : ParseResult) : nodesHas (parseAndIndexFile st f pr).1 (fileNodeId f) = true := by
  unfold parseAndIndexFile
  exact symFold_nodes_mono _ _ _ _ _ (nodesHas_nodesSet_self _ _)

lemma parseAndIndexFile_has_symbol (st : List GraphNode × List GraphEdge) (f : String)
    (pr : ParseResult) (sym : ParsedSymbol) (h : sym ∈ pr.symbols) :
    nodesHas (parseAndIndexFile st f pr).1 (symbolNodeId f sym) = true := by
  unfold parseAndIndexFile
  exact symFold_has_symbol _ _ _ _ sym h

lemma parseAndIndexFile_inv (st : List GraphNode × List GraphEdge) (f : String)
    (pr : ParseResult)
    (h1 : (st.1.map (fun n => n.id)).Nodup)
    (h2 : ∀ e ∈ st.2, nodesHas st.1 e.source = true ∧ nodesHas st.1 e.target = true ∧
      e.type = GraphEdgeType.containsE) :
    (((parseAndIndexFile st f pr).1.map (fun n => n.id)).Nodup ∧
     ∀ e ∈ (parseAndIndexFile st f pr).2,
       nodesHas (parseAndIndexFile st f pr).1 e.source = true ∧
       nodesHas (parseAndIndexFile st f pr).1 e.target = true ∧
       e.type = GraphEdgeType.containsE) := by
  have h := symFold_inv f (fileNodeId f) pr.symbols
    (nodesSet st.1
       { id := fileNodeId f, label := lastPathComponent f, type := .file, path := some f },
     st.2)
    (nodup_nodesSet _ _ h1)
    (by
      intro e he
      obtain ⟨hs, ht, hty⟩ := h2 e he
      exact ⟨nodesHas_nodesSet_mono _ _ _ hs, nodesHas_nodesSet_mono _ _ _ ht, hty⟩)
    (nodesHas_nodesSet_self _ _)
  exact ⟨h.1, h.2.1⟩

lemma phase1_nodes_mono (files : List (String × ParseResult)) :
    ∀ (st : List GraphNode × List GraphEdge) (id : String), nodesHas st.1 id = true →
      nodesHas ((files.foldl (fun st f => parseAndIndexFile st f.1 f.2) st)).1 id = true := by
  induction files with
  | nil => intro st id h; exact h
  | cons a t ih =>
    intro st id h
    exact ih _ _ (parseAndIndexFile_nodes_mono st a.1 a.2 id h)

lemma phase1_has (files : List (String × ParseResult)) :
    ∀ (st : List GraphNode × List GraphEdge) (fp : String × ParseResult), fp ∈ files →
      (nodesHas ((files.foldl (fun st f => parseAndIndexFile st f.1 f.2) st)).1
        (fileNodeId fp.1) = true ∧
       ∀ sym ∈ fp.2.symbols,
         nodesHas ((files.foldl (fun st f => parseAndIndexFile st f.1 f.2) st)).1
           (symbolNodeId fp.1 sym) = true) := by
  induction files with
  | nil => intro st fp h; cases h
  | cons a t ih =>
    intro st fp h
    rcases List.mem_cons.mp h with rfl | h
    · constructor
      · exact phase1_nodes_mono t _ _ (parseAndIndexFile_has_file st fp.1 fp.2)
      · intro sym hsym
        exact phase1_nodes_mono t _ _ (parseAndIndexFile_has_symbol st fp.1 fp.2 sym hsym)
    · exact ih _ fp h

lemma phase1_inv (files : List (String × ParseResult)) :
    ∀ (st : List GraphNode × List GraphEdge),
      (st.1.map (fun n => n.id)).Nodup →
      (∀ e ∈ st.2, nodesHas st.1 e.source = true ∧ nodesHas st.1 e.target = true ∧
        e.type = GraphEdgeType.containsE) →
      ((((files.foldl (fun st f => parseAndIndexFile st f.1 f.2) st)).1.map
          (fun n => n.id)).Nodup ∧
       ∀ e ∈ ((files.foldl (fun st f => parseAndIndexFile st f.1 f.2) st)).2,
         nodesHas ((files.foldl (fun st f => parseAndIndexFile st f.1 f.2) st)).1
           e.source = true ∧
         nodesHas ((files.foldl (fun st f => parseAndIndexFile st f.1 f.2) st)).1
           e.target = true ∧
         e.type = GraphEdgeType.containsE) := by
  induction files with
  | nil => intro st h1 h2; exact ⟨h1, h2⟩
  | cons a t ih =>
    intro st h1 h2
    obtain ⟨g1, g2⟩ := parseAndIndexFile_inv st a.1 a.2 h1 h2
    exact ih _ g1 g2

lemma importEdgeFor_mem (resolver : String → String → Option String) (nodes : List GraphNode)
    (f : String) (imp : ImportInfo) (e : GraphEdge) (h : e ∈ importEdgeFor resolver nodes f imp) :
    e.type = GraphEdgeType.importsE ∧ e.source = fileNodeId f ∧ nodesHas nodes e.target = true := by
  unfold importEdgeFor at h
  rcases hr : resolver imp.modulePath f with _ | rp
  · rw [hr] at h; cases h
  · rw [hr] at h
    simp only at h
    split at h
    · rename_i hhas
      simp only [List.mem_singleton] at h
      subst h
      exact ⟨rfl, rfl, hhas⟩
    · cases h

lemma callEdgeFor_mem (nodes : List GraphNode) (f : String) (call : FunctionCall)
    (e : GraphEdge) (h : e ∈ callEdgeFor nodes f call) :
    e.type = GraphEdgeType.callsE ∧ e.source = callSourceId f call ∧
    findCallTarget nodes call.calleeName f = some e.target ∧
    nodesHas nodes e.target = true := by
  unfold callEdgeFor at h
  rcases ht : findCallTarget nodes call.calleeName f with _ | targetId
  · rw [ht] at h; cases h
  · rw [ht] at h
    simp only at h
    split at h
    · rename_i hhas
      cases h with
      | head => exact ⟨rfl, rfl, rfl, hhas⟩
      | tail _ h2 => cases h2
    · cases h

lemma findCallTarget_shape (nodes : List GraphNode) (calleeName filePath id : String)
    (h : findCallTarget nodes calleeName filePath = some id) :
    nodesHas nodes id = true ∧
    (∃ n, id = "function:" ++ filePath ++ ":" ++ n) ∧
    ((calleeName.data.any (fun c => c = '.') = true ∧
      id = "function:" ++ filePath ++ ":" ++
        String.mk ((splitOnChar '.' calleeName.data []).headD []) ++ "." ++
        String.mk (joinWithChar '.' ((splitOnChar '.' calleeName.data []).drop 1))) ∨
     id = "function:" ++ filePath ++ ":" ++ calleeName) := by
  unfold findCallTarget at h
  split at h
  · rename_i hdot
    by_cases hhas : nodesHas nodes ("function:" ++ filePath ++ ":" ++
        String.mk ((splitOnChar '.' calleeName.data []).headD []) ++ "." ++
        String.mk (joinWithChar '.' ((splitOnChar '.' calleeName.data []).drop 1))) = true
    · simp only [hhas, if_true] at h
      rw [Option.some.injEq] at h
      subst h
      refine ⟨hhas, ?_, Or.inl ⟨hdot, rfl⟩⟩
      refine ⟨String.mk ((splitOnChar '.' calleeName.data []).headD []) ++ "." ++
        String.mk (joinWithChar '.' ((splitOnChar '.' calleeName.data []).drop 1)), ?_⟩
      simp only [String.append_assoc]
    · simp only [hhas, Bool.false_eq_true, if_false] at h
      split at h
      · rename_i hh
        rw [Option.some.injEq] at h
        subst h
        exact ⟨hh, ⟨calleeName, rfl⟩, Or.inr rfl⟩
      · cases h
  · rename_i hdot
    simp only at h
    split at h
    · rename_i hh
      rw [Option.some.injEq] at h
      subst h
      exact ⟨hh, ⟨calleeName, rfl⟩, Or.inr rfl⟩
    · cases h

lemma buildEdgesForFile_mem (resolver : String → String → Option String)
    (nodes : List GraphNode) (f : String) (pr : ParseResult) (e : GraphEdge)
    (h : e ∈ buildEdgesForFile resolver nodes f pr) :
    (∃ imp ∈ pr.imports, e ∈ importEdgeFor resolver nodes f imp) ∨
    (∃ call ∈ pr.calls, e ∈ callEdgeFor nodes f call) := by
  unfold buildEdgesForFile at h
  rcases List.mem_append.mp h with h | h
  · left
    rcases (mem_foldl_append_shape _ _ _ _).mp h with h | h
    · cases h
    · exact h
  · right
    rcases (mem_foldl_append_shape _ _ _ _).mp h with h | h
    · cases h
    · exact h

lemma buildCompleteGraph_nodes (resolver : String → String → Option String)
    (files : List (String × ParseResult)) :
    (buildCompleteGraph resolver files).nodes
      = (files.foldl (fun st f => parseAndIndexFile st f.1 f.2) ([], [])).1 := rfl

lemma buildCompleteGraph_edges (resolver : String → String → Option String)
    (files : List (String × ParseResult)) :
    (buildCompleteGraph resolver files).edges
      = (files.foldl (fun st f => parseAndIndexFile st f.1 f.2) ([], [])).2 ++
        files.foldl (fun es f => es ++ buildEdgesForFile resolver
          (files.foldl (fun st f => parseAndIndexFile st f.1 f.2) ([], [])).1 f.1 f.2) [] := rfl

/-- Well-formedness of extraction output, guaranteed by `parseFileComplete`:
a call's attribution context (`callerFunction`) is always the name of a
`function`-kind symbol the extractor emitted for the same file (function
declarations, class methods and arrow-function variables all push such a
symbol right before becoming the context). -/
def callerIsKnownFunction (pr : ParseResult) (call : FunctionCall) : Bool :=
  match call.callerFunction with
  | none => true
  | some c => pr.symbols.any (fun s => s.kind == SymbolKind.function && s.name == c)

/-- C2: after `buildCompleteGraph`, no two nodes share an id, and every
edge's source and target — for all three edge types — refers to a node
present in the returned node set. The hypothesis is the extractor guarantee
that call-attribution contexts name same-file function symbols (see
`callerIsKnownFunction`); `contains` and `imports` edges and all edge
targets need no hypothesis. -/
theorem c2_node_uniqueness_and_edge_closure (resolver : String → String → Option String)
    (files : List (String × ParseResult))
    (hcallers : ∀ fp ∈ files, ∀ call ∈ fp.2.calls, callerIsKnownFunction fp.2 call = true) :
    ((buildCompleteGraph resolver files).nodes.map (fun n => n.id)).Nodup ∧
    ∀ e ∈ (buildCompleteGraph resolver files).edges,
      nodesHas (buildCompleteGraph resolver files).nodes e.source = true ∧
      nodesHas (buildCompleteGraph resolver files).nodes e.target = true := by
  obtain ⟨hnodup, hphase1⟩ := phase1_inv files ([], []) (by simp) (by intro e he; cases he)
  constructor
  · rw [buildCompleteGraph_nodes]
    exact hnodup
  · intro e he
    rw [buildCompleteGraph_edges] at he
    rw [buildCompleteGraph_nodes]
    rcases List.mem_append.mp he with he | he
    · obtain ⟨hs, ht, _⟩ := hphase1 e he
      exact ⟨hs, ht⟩
    · rcases (mem_foldl_append_shape _ _ _ _).mp he with he | ⟨fp, hfp, he⟩
      · cases he
      · rcases buildEdgesForFile_mem _ _ _ _ _ he with ⟨imp, _, hei⟩ | ⟨call, hcall, hec⟩
        · obtain ⟨_, hsrc, htgt⟩ := importEdgeFor_mem _ _ _ _ _ hei
          refine ⟨?_, htgt⟩
          rw [hsrc]
          exact (phase1_has files ([], []) fp hfp).1
        · obtain ⟨_, hsrc, _, htgt⟩ := callEdgeFor_mem _ _ _ _ hec
          refine ⟨?_, htgt⟩
          rw [hsrc]
          unfold callSourceId
          cases hcf : call.callerFunction with
          | none => exact (phase1_has files ([], []) fp hfp).1
          | some c =>
            have hck := hcallers fp hfp call hcall
            rw [callerIsKnownFunction, hcf, List.any_eq_true] at hck
            obtain ⟨s, hs, hpred⟩ := hck
            rw [Bool.and_eq_true, beq_iff_eq, beq_iff_eq] at hpred
            obtain ⟨hkind, hname⟩ := hpred
            have hmem := (phase1_has files ([], []) fp hfp).2 s hs
            have heq : symbolNodeId fp.1 s = "function:" ++ fp.1 ++ ":" ++ c := by
              unfold symbolNodeId
              rw [hkind, hname]
              rfl
            show nodesHas _ ("function:" ++ fp.1 ++ ":" ++ c) = true
            rw [← heq]
            exact hmem

/-- Witness for C2: the two-file `a.ts`/`b.ts` build. -/
theorem c2_witness :
    ((buildCompleteGraph abResolver abFiles).nodes.map (fun n => n.id)).Nodup ∧
    ∀ e ∈ (buildCompleteGraph abResolver abFiles).edges,
      nodesHas (buildCompleteGraph abResolver abFiles).nodes e.source = true ∧
      nodesHas (buildCompleteGraph abResolver abFiles).nodes e.target = true :=
  c2_node_uniqueness_and_edge_closure abResolver abFiles (by decide)

/-- Node set of a one-file scenario where `f.ts` defines `g`. -/
def sameFileNodes : List GraphNode :=
  [{ id := "function:f.ts:g", label := "g", type := .function, path := some "f.ts",
     exported := some false }]

/-- C8: call resolution is same-file only. (1) `findCallTarget` matches
`calleeName` only against node ids of the form `function:<file>:<n>` for the
calling file — `function:<file>:<Receiver>.<method>` when the name contains
a dot, else `function:<file>:<calleeName>`. (2) Every `calls` edge of a
built graph stems from a call site of some input file and targets a
function id of that same file — never a symbol of a different file. (3) In
the concrete two-file scenario where `a.ts` defines `main` calling `helper`
and `helper` lives only in `b.ts`, the built graph contains no `calls` edge
at all. -/
theorem c8_same_file_call_resolution :
    (∀ (nodes : List GraphNode) (calleeName filePath id : String),
      findCallTarget nodes calleeName filePath = some id →
      nodesHas nodes id = true ∧
      ((calleeName.data.any (fun c => c = '.') = true ∧
        id = "function:" ++ filePath ++ ":" ++
          String.mk ((splitOnChar '.' calleeName.data []).headD []) ++ "." ++
          String.mk (joinWithChar '.' ((splitOnChar '.' calleeName.data []).drop 1))) ∨
       id = "function:" ++ filePath ++ ":" ++ calleeName)) ∧
    (∀ (resolver : String → String → Option String) (files : List (String × ParseResult)),
      ∀ e ∈ (buildCompleteGraph resolver files).edges, e.type = GraphEdgeType.callsE →
      ∃ fp ∈ files, ∃ call ∈ fp.2.calls, e.source = callSourceId fp.1 call ∧
        ∃ n, e.target = "function:" ++ fp.1 ++ ":" ++ n) ∧
    ((buildCompleteGraph abResolver abFiles).edges.filter
      (fun e => e.type == GraphEdgeType.callsE) = []) := by
  refine ⟨?_, ?_, by decide⟩
  · intro nodes calleeName filePath id h
    obtain ⟨h1, _, h3⟩ := findCallTarget_shape nodes calleeName filePath id h
    exact ⟨h1, h3⟩
  · intro resolver files e he hty
    rw [buildCompleteGraph_edges] at he
    rcases List.mem_append.mp he with he | he
    · obtain ⟨_, _, hc⟩ :=
        (phase1_inv files ([], []) (by simp) (by intro e he; cases he)).2 e he
      rw [hty] at hc
      cases hc
    · rcases (mem_foldl_append_shape _ _ _ _).mp he with he | ⟨fp, hfp, he⟩
      · cases he
      · rcases buildEdgesForFile_mem _ _ _ _ _ he with ⟨imp, _, hei⟩ | ⟨call, hcall, hec⟩
        · obtain ⟨htyi, _, _⟩ := importEdgeFor_mem _ _ _ _ _ hei
          rw [hty] at htyi
          cases htyi
        · obtain ⟨_, hsrc, hfind, _⟩ := callEdgeFor_mem _ _ _ _ hec
          obtain ⟨_, ⟨n, hn⟩, _⟩ := findCallTarget_shape _ _ _ _ hfind
          exact ⟨fp, hfp, call, hcall, hsrc, n, hn⟩

/-- Witness for C8: resolving the bare call `g()` inside `f.ts` where `f.ts`
defines `g`. -/
theorem c8_witness :
    nodesHas sameFileNodes "function:f.ts:g" = true ∧
    (("g".data.any (fun c => c = '.') = true ∧
      "function:f.ts:g" = "function:" ++ "f.ts" ++ ":" ++
        String.mk ((splitOnChar '.' "g".data []).headD []) ++ "." ++
        String.mk (joinWithChar '.' ((splitOnChar '.' "g".data []).drop 1))) ∨
     "function:f.ts:g" = "function:" ++ "f.ts" ++ ":" ++ "g") :=
  c8_same_file_call_resolution.1 sameFileNodes "g" "f.ts" "function:f.ts:g" (by decide)

/-! ## C6 — LRU eviction of the cache -/

lemma entriesSet_fresh {T : Type} (l : List (CacheEntry T)) (e : CacheEntry T)
    (h : l.any (fun x => x.key == e.key) = false) : entriesSet l e = l ++ [e] := by
  unfold entriesSet
  rw [h]
  simp

lemma set_config {T : Type} (c : SemanticCache T) (now : Int) (k : String) (v : T) :
    (c.set now k v).maxSize = c.maxSize ∧ (c.set now k v).ttlMs = c.ttlMs := by
  unfold SemanticCache.set SemanticCache.evictLRU
  split
  · split <;> exact ⟨rfl, rfl⟩
  · exact ⟨rfl, rfl⟩

lemma set_entries_no_evict {T : Type} (c : SemanticCache T) (now : Int) (k : String) (v : T)
    (h : c.entries.length < c.maxSize) :
    (c.set now k v).entries = entriesSet c.entries ⟨k, v, now, 0⟩ := by
  unfold SemanticCache.set
  rw [if_neg (by omega)]

lemma setAll_fresh {T : Type} :
    ∀ (ops : List (Int × String × T)) (c : SemanticCache T),
      (∀ op ∈ ops, c.entries.any (fun e => e.key == op.2.1) = false) →
      (ops.map (fun o => o.2.1)).Nodup →
      c.entries.length + ops.length ≤ c.maxSize →
      (c.setAll ops).entries = c.entries ++ ops.map (fun o => ⟨o.2.1, o.2.2, o.1, 0⟩) ∧
      (c.setAll ops).maxSize = c.maxSize ∧ (c.setAll ops).ttlMs = c.ttlMs := by
  intro ops
  induction ops with
  | nil => intro c _ _ _; exact ⟨by simp [SemanticCache.setAll], rfl, rfl⟩
  | cons op rest ih =>
    intro c hfresh hnodup hlen
    have hop := hfresh op (by simp)
    have hset : (c.set op.1 op.2.1 op.2.2).entries = c.entries ++ [⟨op.2.1, op.2.2, op.1, 0⟩] := by
      rw [set_entries_no_evict c op.1 op.2.1 op.2.2 (by simp at hlen; omega)]
      exact entriesSet_fresh _ _ hop
    have hcfg := set_config c op.1 op.2.1 op.2.2
    have hrest := ih (c.set op.1 op.2.1 op.2.2)
      (by
        intro op' hop'
        rw [hset, List.any_append]
        have h1 := hfresh op' (by simp [hop'])
        rw [h1]
        simp only [Bool.false_or, List.any_cons, List.any_nil, Bool.or_false]
        rw [List.map_cons, List.nodup_cons] at hnodup
        have : op.2.1 ≠ op'.2.1 := by
          intro hk
          exact hnodup.1 (hk ▸ List.mem_map_of_mem (fun o => o.2.1) hop')
        simpa using this)
      (by rw [List.map_cons, List.nodup_cons] at hnodup; exact hnodup.2)
      (by rw [hset, hcfg.1]; simp at hlen ⊢; omega)
    refine ⟨?_, ?_, ?_⟩
    · have : (c.setAll (op :: rest)) = ((c.set op.1 op.2.1 op.2.2).setAll rest) := rfl
      rw [this, hrest.1, hset]
      simp
    · have : (c.setAll (op :: rest)) = ((c.set op.1 op.2.1 op.2.2).setAll rest) := rfl
      rw [this, hrest.2.1, hcfg.1]
    · have : (c.setAll (op :: rest)) = ((c.set op.1 op.2.1 op.2.2).setAll rest) := rfl
      rw [this, hrest.2.2, hcfg.2]

lemma oldestFold_acc_min {T : Type} :
    ∀ (l : List (CacheEntry T)) (o : CacheEntry T),
      (∀ x ∈ l, o.timestamp ≤ x.timestamp) → l.foldl oldestFold (some o) = some o := by
  intro l
  induction l with
  | nil => intro o _; rfl
  | cons x t ih =>
    intro o h
    simp only [List.foldl_cons]
    have hx0 : oldestFold (some o) x
        = if x.timestamp < o.timestamp then some x else some o := rfl
    have hx : oldestFold (some o) x = some o := by
      rw [hx0, if_neg (not_lt.mpr (h x (by simp)))]
    rw [hx]
    exact ih o (fun y hy => h y (by simp [hy]))

lemma oldestEntry_sorted_head {T : Type} (e : CacheEntry T) (l : List (CacheEntry T))
    (h : ∀ x ∈ l, e.timestamp ≤ x.timestamp) : oldestEntry (e :: l) = some e := by
  unfold oldestEntry
  simp only [List.foldl_cons]
  have : oldestFold none e = some e := rfl
  rw [this]
  exact oldestFold_acc_min l e h

lemma oldestFold_min_aux {T : Type} :
    ∀ (l : List (CacheEntry T)) (acc : Option (CacheEntry T)) (o : CacheEntry T),
      l.foldl oldestFold acc = some o →
      (∀ x ∈ l, o.timestamp ≤ x.timestamp) ∧
      (∀ a, acc = some a → o.timestamp ≤ a.timestamp) := by
  intro l
  induction l with
  | nil =>
    intro acc o h
    constructor
    · intro x hx; cases hx
    · intro a ha
      rw [ha] at h
      simp only [List.foldl_nil, Option.some.injEq] at h
      rw [h]
  | cons x t ih =>
    intro acc o h
    simp only [List.foldl_cons] at h
    obtain ⟨ht, hacc⟩ := ih (oldestFold acc x) o h
    cases acc with
    | none =>
      refine ⟨?_, by intro a ha; cases ha⟩
      intro y hy
      rcases List.mem_cons.mp hy with rfl | hy
      · exact hacc y rfl
      · exact ht y hy
    | some a =>
      have hfold : oldestFold (some a) x
          = if x.timestamp < a.timestamp then some x else some a := rfl
      by_cases hlt : x.timestamp < a.timestamp
      · rw [hfold, if_pos hlt] at hacc
        have hox := hacc x rfl
        refine ⟨?_, ?_⟩
        · intro y hy
          rcases List.mem_cons.mp hy with rfl | hy
          · exact hox
          · exact ht y hy
        · intro b hb
          rw [Option.some.injEq] at hb
          subst hb
          omega
      · rw [hfold, if_neg hlt] at hacc
        have hoa := hacc a rfl
        refine ⟨?_, ?_⟩
        · intro y hy
          rcases List.mem_cons.mp hy with rfl | hy
          · omega
          · exact ht y hy
        · intro b hb
          rw [Option.some.injEq] at hb
          subst hb
          exact hoa

lemma oldestEntry_is_min {T : Type} (entries : List (CacheEntry T)) (o : CacheEntry T)
    (h : oldestEntry entries = some o) : ∀ e ∈ entries, o.timestamp ≤ e.timestamp :=
  (oldestFold_min_aux entries none o h).1

lemma entriesDelete_head {T : Type} (e : CacheEntry T) (l : List (CacheEntry T))
    (h : ∀ x ∈ l, x.key ≠ e.key) : entriesDelete (e :: l) e.key = l := by
  unfold entriesDelete
  rw [List.filter_cons]
  simp only [bne_self_eq_false, Bool.false_eq_true, if_false]
  exact List.filter_eq_self.mpr (fun x hx => by simpa using h x hx)

lemma entriesAny_eq_mem {T : Type} (l : List (CacheEntry T)) (k : String) :
    l.any (fun e => e.key == k) = true ↔ k ∈ l.map (fun e => e.key) := by
  simp [List.any_eq_true, beq_iff_eq, List.mem_map]

lemma entriesAny_eq_false {T : Type} (l : List (CacheEntry T)) (k : String)
    (h : k ∉ l.map (fun e => e.key)) : l.any (fun e => e.key == k) = false := by
  rw [← Bool.not_eq_true]
  intro hc
  exact h ((entriesAny_eq_mem l k).mp hc)

lemma find?_cons_key {T : Type} (p : CacheEntry T → Bool) (a : CacheEntry T)
    (t : List (CacheEntry T)) :
    (a :: t).find? p = if p a = true then some a else t.find? p := by
  by_cases h : p a = true
  · rw [List.find?_cons_of_pos _ h, if_pos h]
  · rw [List.find?_cons_of_neg _ h, if_neg h]

lemma find?_map_update {T : Type} (l : List (CacheEntry T)) (key : String)
    (g : CacheEntry T → CacheEntry T) (hg : ∀ x, (g x).key = x.key) :
    (l.map (fun x => if x.key == key then g x else x)).find? (fun x => x.key == key)
      = (l.find? (fun x => x.key == key)).map g := by
  induction l with
  | nil => rfl
  | cons a t ih =>
    rw [List.map_cons, find?_cons_key, find?_cons_key]
    by_cases ha : (a.key == key) = true
    · simp only [ha, if_true, hg, Option.map_some']
    · simp only [ha, Bool.false_eq_true, if_false, if_neg ha]
      exact ih

/-- C6: (1) inserting `n+1` distinct keys with non-decreasing timestamps into
an empty cache of capacity `n ≥ 1` — the first key never re-accessed —
evicts exactly the first key on the `(n+1)`-th insert, and every other
inserted key remains, in order; (2) in general, `set` at capacity with a new
key removes an entry with the oldest timestamp; (3) a successful `get`
refreshes the hit entry's timestamp to `now` (and bumps its access count)
while returning its value. -/
theorem c6_cache_lru_eviction :
    (∀ (T : Type) (n : Nat) (ttl : Int) (ops : List (Int × String × T)),
      1 ≤ n → ops.length = n + 1 →
      (ops.map (fun o => o.2.1)).Nodup →
      (ops.map (fun o => o.1)).Pairwise (· ≤ ·) →
      ((SemanticCache.empty T n ttl).setAll ops).entries.map (fun e => e.key)
        = (ops.map (fun o => o.2.1)).drop 1) ∧
    (∀ (T : Type) (c : SemanticCache T) (o : CacheEntry T) (now : Int) (k : String) (v : T),
      oldestEntry c.entries = some o →
      c.entries.length ≥ c.maxSize →
      c.entries.any (fun e => e.key == k) = false →
      (∀ e ∈ c.entries, o.timestamp ≤ e.timestamp) ∧
      (c.set now k v).entries
        = entriesSet (entriesDelete c.entries o.key) ⟨k, v, now, 0⟩) ∧
    (∀ (T : Type) (c : SemanticCache T) (now : Int) (key : String) (e : CacheEntry T),
      c.entries.find? (fun x => x.key == key) = some e →
      now - e.timestamp ≤ c.ttlMs →
      (c.get now key).1 = some e.value ∧
      (c.get now key).2.entries.find? (fun x => x.key == key)
        = some { e with timestamp := now, accessCount := e.accessCount + 1 }) := by
  refine ⟨?_, ?_, ?_⟩
  · intro T n ttl ops hn hlen hnodup hsorted
    obtain ⟨opL, hopL⟩ := List.length_eq_one.mp
      (show (ops.drop n).length = 1 by rw [List.length_drop, hlen]; omega)
    have hsplit : ops = ops.take n ++ [opL] := by
      rw [← hopL]; exact (List.take_append_drop n ops).symm
    obtain ⟨op0, l1t, hl1⟩ : ∃ op0 l1t, ops.take n = op0 :: l1t := by
      rcases hthe : ops.take n with _ | ⟨a, t⟩
      · exfalso
        have := congrArg List.length hthe
        rw [List.length_take, hlen] at this
        simp at this
        omega
      · exact ⟨a, t, rfl⟩
    rw [hl1] at hsplit
    subst hsplit
    have hlent : l1t.length = n - 1 := by
      simp at hlen
      omega
    have hkeys : ((op0 :: l1t) ++ [opL]).map (fun o => o.2.1)
        = op0.2.1 :: (l1t.map (fun o => o.2.1) ++ [opL.2.1]) := by simp
    have htimes : ((op0 :: l1t) ++ [opL]).map (fun o => o.1)
        = op0.1 :: (l1t.map (fun o => o.1) ++ [opL.1]) := by simp
    rw [hkeys] at hnodup
    rw [htimes] at hsorted
    rw [List.nodup_cons] at hnodup
    rw [List.pairwise_cons] at hsorted
    have hk0notin : op0.2.1 ∉ l1t.map (fun o => o.2.1) ++ [opL.2.1] := hnodup.1
    have hkLnotin : opL.2.1 ∉ l1t.map (fun o => o.2.1) := by
      intro hmem
      have := List.disjoint_of_nodup_append hnodup.2
      exact this hmem (by simp)
    have h1 := setAll_fresh (op0 :: l1t) (SemanticCache.empty T n ttl)
      (by intro op _; rfl)
      (by
        have : ((op0 :: l1t).map (fun o => o.2.1)).Nodup := by
          rw [List.map_cons, List.nodup_cons]
          constructor
          · intro hmem
            exact hk0notin (List.mem_append_left _ hmem)
          · exact (List.Nodup.of_append_left hnodup.2)
        exact this)
      (by simp [SemanticCache.empty]; omega)
    have hc1entries : ((SemanticCache.empty T n ttl).setAll (op0 :: l1t)).entries
        = (⟨op0.2.1, op0.2.2, op0.1, 0⟩ : CacheEntry T)
            :: l1t.map (fun o => ⟨o.2.1, o.2.2, o.1, 0⟩) := by
      rw [h1.1]
      simp [SemanticCache.empty]
    have hc1max : ((SemanticCache.empty T n ttl).setAll (op0 :: l1t)).maxSize = n := h1.2.1
    have hfinal : (SemanticCache.empty T n ttl).setAll ((op0 :: l1t) ++ [opL])
        = ((SemanticCache.empty T n ttl).setAll (op0 :: l1t)).set opL.1 opL.2.1 opL.2.2 := by
      unfold SemanticCache.setAll
      rw [List.foldl_append]
      rfl
    rw [hfinal]
    have hany : ((SemanticCache.empty T n ttl).setAll (op0 :: l1t)).entries.any
        (fun e => e.key == opL.2.1) = false := by
      apply entriesAny_eq_false
      rw [hc1entries]
      simp only [List.map_cons, List.map_map, List.mem_cons]
      rintro (hc | hc)
      · exact hk0notin (by simp [← hc])
      · apply hkLnotin
        simpa using hc
    have hcond : ((SemanticCache.empty T n ttl).setAll (op0 :: l1t)).entries.length
          ≥ ((SemanticCache.empty T n ttl).setAll (op0 :: l1t)).maxSize ∧
        ¬(((SemanticCache.empty T n ttl).setAll (op0 :: l1t)).entries.any
          (fun e => e.key == opL.2.1) = true) := by
      constructor
      · rw [hc1entries, hc1max]
        simp
        omega
      · rw [hany]
        simp
    have hold : oldestEntry ((SemanticCache.empty T n ttl).setAll (op0 :: l1t)).entries
        = some ⟨op0.2.1, op0.2.2, op0.1, 0⟩ := by
      rw [hc1entries]
      apply oldestEntry_sorted_head
      intro x hx
      obtain ⟨o', ho', hxo⟩ := List.mem_map.mp hx
      subst hxo
      exact hsorted.1 o'.1 (List.mem_append_left _ (List.mem_map_of_mem _ ho'))
    have hev : (((SemanticCache.empty T n ttl).setAll (op0 :: l1t)).evictLRU).entries
        = l1t.map (fun o => ⟨o.2.1, o.2.2, o.1, 0⟩) := by
      unfold SemanticCache.evictLRU
      rw [hold]
      simp only
      rw [hc1entries]
      apply entriesDelete_head
      intro x hx
      obtain ⟨o', ho', hxo⟩ := List.mem_map.mp hx
      subst hxo
      intro hc
      exact hk0notin (List.mem_append_left _ (by
        simp only [List.mem_map]
        exact ⟨o', ho', by simpa using hc⟩))
    have hsetfinal : (((SemanticCache.empty T n ttl).setAll (op0 :: l1t)).set
        opL.1 opL.2.1 opL.2.2).entries
        = l1t.map (fun o => ⟨o.2.1, o.2.2, o.1, 0⟩) ++ [⟨opL.2.1, opL.2.2, opL.1, 0⟩] := by
      unfold SemanticCache.set
      rw [if_pos hcond]
      simp only
      rw [← entriesSet_fresh (l1t.map (fun o => ⟨o.2.1, o.2.2, o.1, 0⟩))
        (⟨opL.2.1, opL.2.2, opL.1, 0⟩ : CacheEntry T) ?hfresh]
      · rw [hev]
      · apply entriesAny_eq_false
        intro hc
        apply hkLnotin
        simpa using hc
    rw [hsetfinal, hkeys]
    simp
  · intro T c o now k v hold hlen hany
    refine ⟨oldestEntry_is_min c.entries o hold, ?_⟩
    unfold SemanticCache.set
    rw [if_pos ⟨hlen, by rw [hany]; simp⟩]
    unfold SemanticCache.evictLRU
    rw [hold]
  · intro T c now key e hfind httl
    unfold SemanticCache.get
    rw [hfind]
    simp only
    rw [if_neg (show ¬(now - e.timestamp > c.ttlMs) by omega)]
    refine ⟨rfl, ?_⟩
    simp only
    rw [find?_map_update c.entries key
      (fun x => { x with accessCount := x.accessCount + 1, timestamp := now }) (fun x => rfl)]
    rw [hfind]
    rfl

/-- Witness for C6: capacity 2, three distinct keys at times 0, 1, 2 — key
`"a"` is evicted, `"b"` and `"c"` remain. -/
theorem c6_witness :
    (((SemanticCache.empty Nat 2 3600000).setAll
        [(0, "a", 10), (1, "b", 20), (2, "c", 30)]).entries.map (fun e => e.key))
      = (([((0 : Int), "a", (10 : Nat)), (1, "b", 20), (2, "c", 30)]).map
          (fun o => o.2.1)).drop 1 :=
  c6_cache_lru_eviction.1 Nat 2 3600000 [(0, "a", 10), (1, "b", 20), (2, "c", 30)]
    (by omega) (by decide) (by decide) (by decide)

/-! ## C7 — at-most-one computation per text in `getOrCompute` -/

lemma getOrCompute_hit (c : EmbeddingCache) (now : Int) (text : String) (e : CacheEntry (List ℚ))
    (v : List ℚ)
    (hf : c.entries.find? (fun x => x.key == EmbeddingCache.createKey text) = some e)
    (hts : ¬(now - e.timestamp > c.ttlMs)) :
    EmbeddingCache.getOrCompute c now text v
      = (e.value,
         { c with entries := c.entries.map (fun x =>
             if x.key == EmbeddingCache.createKey text then
               { x with accessCount := x.accessCount + 1, timestamp := now }
             else x) },
         false) := by
  unfold EmbeddingCache.getOrCompute SemanticCache.get
  simp only
  rw [hf]
  simp only
  rw [if_neg hts]

lemma getOrCompute_miss (c : EmbeddingCache) (now : Int) (text : String) (v : List ℚ)
    (hf : c.entries.find? (fun x => x.key == EmbeddingCache.createKey text) = none) :
    EmbeddingCache.getOrCompute c now text v
      = (v, SemanticCache.set c now (EmbeddingCache.createKey text) v, true) := by
  unfold EmbeddingCache.getOrCompute SemanticCache.get
  simp only
  rw [hf]

lemma any_map_key_preserving (l : List (CacheEntry (List ℚ))) (k h : String)
    (g : CacheEntry (List ℚ) → CacheEntry (List ℚ)) (hg : ∀ x, (g x).key = x.key) :
    (l.map (fun x => if x.key == k then g x else x)).any (fun e => e.key == h)
      = l.any (fun e => e.key == h) := by
  rw [List.any_map]
  congr 1
  funext x
  simp only [Function.comp_apply]
  split
  · rw [hg]
  · rfl

lemma runGetOrCompute_cons (c : EmbeddingCache) (call : Int × String × List ℚ)
    (rest : List (Int × String × List ℚ)) :
    EmbeddingCache.runGetOrCompute c (call :: rest)
      = (EmbeddingCache.createKey call.2.1,
         (EmbeddingCache.getOrCompute c call.1 call.2.1 call.2.2).2.2)
        :: EmbeddingCache.runGetOrCompute
            (EmbeddingCache.getOrCompute c call.1 call.2.1 call.2.2).2.1 rest := rfl

lemma run_count_zero (now : Int) (h : String) :
    ∀ (calls : List (Int × String × List ℚ)) (c : EmbeddingCache),
      0 ≤ c.ttlMs →
      (∀ e ∈ c.entries, e.timestamp = now) →
      (∀ call ∈ calls, call.1 = now) →
      c.entries.length + calls.length ≤ c.maxSize →
      c.entries.any (fun e => e.key == h) = true →
      (EmbeddingCache.runGetOrCompute c calls).countP (fun p => p.1 == h && p.2) = 0 := by
  intro calls
  induction calls with
  | nil => intro c _ _ _ _ _; rfl
  | cons call rest ih =>
    intro c httl hstate hnow hlen hpresent
    have hct : call.1 = now := hnow call (by simp)
    rcases hf : c.entries.find? (fun x => x.key == EmbeddingCache.createKey call.2.1) with _ | e
    · have hkey : c.entries.any (fun x => x.key == EmbeddingCache.createKey call.2.1) = false := by
        rw [← Bool.not_eq_true, List.any_eq_true]
        rintro ⟨x, hx, hpx⟩
        exact List.find?_eq_none.mp hf x hx hpx
      have hmiss := getOrCompute_miss c call.1 call.2.1 call.2.2 hf
      rw [runGetOrCompute_cons, hmiss]
      simp only
      rw [List.countP_cons]
      have hkh : (EmbeddingCache.createKey call.2.1 == h) = false := by
        rw [← Bool.not_eq_true, beq_iff_eq]
        intro hkeq
        rw [hkeq] at hkey
        rw [hpresent] at hkey
        cases hkey
      have hsetent : (SemanticCache.set c call.1 (EmbeddingCache.createKey call.2.1)
          call.2.2).entries
          = c.entries ++ [⟨EmbeddingCache.createKey call.2.1, call.2.2, call.1, 0⟩] := by
        rw [set_entries_no_evict c call.1 _ call.2.2 (by simp at hlen; omega)]
        exact entriesSet_fresh _ _ hkey
      have hcfg := set_config c call.1 (EmbeddingCache.createKey call.2.1) call.2.2
      rw [ih (SemanticCache.set c call.1 (EmbeddingCache.createKey call.2.1) call.2.2)
        (by rw [hcfg.2]; exact httl)
        (by
          rw [hsetent]
          intro e he
          rcases List.mem_append.mp he with he | he
          · exact hstate e he
          · simp only [List.mem_singleton] at he
            rw [he, hct])
        (by intro cc hcc; exact hnow cc (by simp [hcc]))
        (by rw [hsetent, hcfg.1]; simp at hlen ⊢; omega)
        (by rw [hsetent, List.any_append, hpresent]; rfl)]
      simp [hkh]
    · have hets : e.timestamp = now := hstate e (List.mem_of_find?_eq_some hf)
      have hts : ¬(call.1 - e.timestamp > c.ttlMs) := by rw [hct, hets]; omega
      have hhit := getOrCompute_hit c call.1 call.2.1 e call.2.2 hf hts
      rw [runGetOrCompute_cons, hhit]
      simp only
      rw [List.countP_cons]
      rw [ih _
        (by exact httl)
        (by
          intro x hx
          obtain ⟨y, hy, hxy⟩ := List.mem_map.mp hx
          by_cases hky : (y.key == EmbeddingCache.createKey call.2.1) = true
          · rw [if_pos hky] at hxy
            rw [← hxy]
            exact hct
          · rw [if_neg hky] at hxy
            rw [← hxy]
            exact hstate y hy)
        (by intro cc hcc; exact hnow cc (by simp [hcc]))
        (by simp at hlen ⊢; omega)
        (by
          rw [any_map_key_preserving c.entries (EmbeddingCache.createKey call.2.1) h
            (fun x => { x with accessCount := x.accessCount + 1, timestamp := call.1 })
            (fun x => rfl)]
          exact hpresent)]
      simp

lemma run_count_le_one (now : Int) (h : String) :
    ∀ (calls : List (Int × String × List ℚ)) (c : EmbeddingCache),
      0 ≤ c.ttlMs →
      (∀ e ∈ c.entries, e.timestamp = now) →
      (∀ call ∈ calls, call.1 = now) →
      c.entries.length + calls.length ≤ c.maxSize →
      (EmbeddingCache.runGetOrCompute c calls).countP (fun p => p.1 == h && p.2) ≤ 1 := by
  intro calls
  induction calls with
  | nil => intro c _ _ _ _; simp [EmbeddingCache.runGetOrCompute]
  | cons call rest ih =>
    intro c httl hstate hnow hlen
    have hct : call.1 = now := hnow call (by simp)
    rcases hf : c.entries.find? (fun x => x.key == EmbeddingCache.createKey call.2.1) with _ | e
    · have hkey : c.entries.any (fun x => x.key == EmbeddingCache.createKey call.2.1) = false := by
        rw [← Bool.not_eq_true, List.any_eq_true]
        rintro ⟨x, hx, hpx⟩
        exact List.find?_eq_none.mp hf x hx hpx
      have hmiss := getOrCompute_miss c call.1 call.2.1 call.2.2 hf
      rw [runGetOrCompute_cons, hmiss]
      simp only
      rw [List.countP_cons]
      have hsetent : (SemanticCache.set c call.1 (EmbeddingCache.createKey call.2.1)
          call.2.2).entries
          = c.entries ++ [⟨EmbeddingCache.createKey call.2.1, call.2.2, call.1, 0⟩] := by
        rw [set_entries_no_evict c call.1 _ call.2.2 (by simp at hlen; omega)]
        exact entriesSet_fresh _ _ hkey
      have hcfg := set_config c call.1 (EmbeddingCache.createKey call.2.1) call.2.2
      by_cases hkh : (EmbeddingCache.createKey call.2.1 == h) = true
      · rw [run_count_zero now h rest _
          (by rw [hcfg.2]; exact httl)
          (by
            rw [hsetent]
            intro e he
            rcases List.mem_append.mp he with he | he
            · exact hstate e he
            · simp only [List.mem_singleton] at he
              rw [he, hct])
          (by intro cc hcc; exact hnow cc (by simp [hcc]))
          (by rw [hsetent, hcfg.1]; simp at hlen ⊢; omega)
          (by
            rw [hsetent, List.any_append]
            have : ([(⟨EmbeddingCache.createKey call.2.1, call.2.2, call.1, 0⟩ :
                CacheEntry (List ℚ))].any (fun e => e.key == h)) = true := by
              simp only [List.any_cons, List.any_nil, Bool.or_false]
              exact hkh
            rw [this, Bool.or_true])]
        simp [hkh]
      · have hrest := ih (SemanticCache.set c call.1 (EmbeddingCache.createKey call.2.1)
            call.2.2)
          (by rw [hcfg.2]; exact httl)
          (by
            rw [hsetent]
            intro e he
            rcases List.mem_append.mp he with he | he
            · exact hstate e he
            · simp only [List.mem_singleton] at he
              rw [he, hct])
          (by intro cc hcc; exact hnow cc (by simp [hcc]))
          (by rw [hsetent, hcfg.1]; simp at hlen ⊢; omega)
        simpa [hkh] using hrest
    · have hets : e.timestamp = now := hstate e (List.mem_of_find?_eq_some hf)
      have hts : ¬(call.1 - e.timestamp > c.ttlMs) := by rw [hct, hets]; omega
      have hhit := getOrCompute_hit c call.1 call.2.1 e call.2.2 hf hts
      rw [runGetOrCompute_cons, hhit]
      simp only
      rw [List.countP_cons]
      have hrest := ih ({ c with entries := c.entries.map (fun x =>
          if x.key == EmbeddingCache.createKey call.2.1 then
            { x with accessCount := x.accessCount + 1, timestamp := call.1 }
          else x) })
        (by exact httl)
        (by
          intro x hx
          obtain ⟨y, hy, hxy⟩ := List.mem_map.mp hx
          by_cases hky : (y.key == EmbeddingCache.createKey call.2.1) = true
          · rw [if_pos hky] at hxy
            rw [← hxy]
            exact hct
          · rw [if_neg hky] at hxy
            rw [← hxy]
            exact hstate y hy)
        (by intro cc hcc; exact hnow cc (by simp [hcc]))
        (by simp at hlen ⊢; omega)
      simpa using hrest

/-- C7 (counterexample): over one `EmbeddingCache` instance with the default
configuration (`maxSize = 1000`, `ttlMs` one hour), two `getOrCompute` calls
for the same text `"a"` — the second after the TTL window — both invoke the
compute function: the entry expires, is evicted on access, and is
recomputed, violating "at most one computation per distinct text per cache
lifetime". -/
theorem c7_ttl_recompute_counterexample :
    (EmbeddingCache.runGetOrCompute (SemanticCache.empty (List ℚ) 1000 3600000)
        [(0, "a", [1]), (3600001, "a", [1])]).countP
      (fun p => p.1 == EmbeddingCache.createKey "a" && p.2) = 2 ∧ ¬((2 : Nat) ≤ 1) := by
  constructor
  · decide
  · decide

/-- C7 (amended): `getOrCompute` invokes the compute function at most once
per distinct text as long as the cached entry is not lost in between —
concretely, for any sequence of calls made at one instant (no TTL expiry,
`ttl ≥ 0`) whose length does not exceed the capacity (no LRU eviction),
each key's compute count is at most one. Moreover a hit returns the stored
vector without computing, and a miss computes and stores it. -/
theorem c7_at_most_one_compute :
    (∀ (maxSize : Nat) (ttl now : Int) (calls : List (Int × String × List ℚ)),
      0 ≤ ttl → calls.length ≤ maxSize → (∀ call ∈ calls, call.1 = now) →
      ∀ h : String,
        (EmbeddingCache.runGetOrCompute (SemanticCache.empty (List ℚ) maxSize ttl)
          calls).countP (fun p => p.1 == h && p.2) ≤ 1) ∧
    (∀ (c : EmbeddingCache) (now : Int) (text : String) (e : CacheEntry (List ℚ)) (v : List ℚ),
      c.entries.find? (fun x => x.key == EmbeddingCache.createKey text) = some e →
      ¬(now - e.timestamp > c.ttlMs) →
      (EmbeddingCache.getOrCompute c now text v).1 = e.value ∧
      (EmbeddingCache.getOrCompute c now text v).2.2 = false) ∧
    (∀ (c : EmbeddingCache) (now : Int) (text : String) (v : List ℚ),
      c.entries.find? (fun x => x.key == EmbeddingCache.createKey text) = none →
      (EmbeddingCache.getOrCompute c now text v).1 = v ∧
      (EmbeddingCache.getOrCompute c now text v).2.1
        = SemanticCache.set c now (EmbeddingCache.createKey text) v ∧
      (EmbeddingCache.getOrCompute c now text v).2.2 = true) := by
  refine ⟨?_, ?_, ?_⟩
  · intro maxSize ttl now calls h0 hlen hnow h
    exact run_count_le_one now h calls (SemanticCache.empty (List ℚ) maxSize ttl)
      h0 (by intro e he; cases he) hnow (by simpa [SemanticCache.empty] using hlen)
  · intro c now text e v hf hts
    rw [getOrCompute_hit c now text e v hf hts]
    exact ⟨rfl, rfl⟩
  · intro c now text v hf
    rw [getOrCompute_miss c now text v hf]
    exact ⟨rfl, rfl, rfl⟩

/-- Witness for C7 (amended): two same-instant calls for `"a"` on a
capacity-2 cache compute at most once for the key of `"a"`. -/
theorem c7_witness :
    (EmbeddingCache.runGetOrCompute (SemanticCache.empty (List ℚ) 2 3600000)
        [(0, "a", [1]), (0, "a", [2])]).countP
      (fun p => p.1 == EmbeddingCache.createKey "a" && p.2) ≤ 1 :=
  c7_at_most_one_compute.1 2 3600000 0 [(0, "a", [1]), (0, "a", [2])]
    (by omega) (by decide) (by decide) (EmbeddingCache.createKey "a")
